import Mathlib

/-!
Verification of the fair-and-feasible repository: a shallow embedding of the
allocation enumerator (allocations.py), the feasibility predicates
(feasibility.py), the agent valuation hierarchy (agents.py), the fairness
checks (fairness.py) and the capped round robin algorithm
(capped_round_robin.py), together with theorems settling the specification
claims.

Modelling conventions:
an Item is a generic linearly ordered type (the Python code only compares and
hashes items); a Bundle is a `List Item` recording the order in which the
enumerator placed items into it (Python uses a set built by successive adds);
Python float values are modelled as integers (the repository only ever uses
integer values); Python dictionaries are association lists; fallible Python
code (IndexError, KeyError, ValueError, RuntimeError) is modelled with
`Except String` or explicit error constructors.
-/

section Enumerator

variable {Item : Type} [DecidableEq Item] [LinearOrder Item]

/-- Embedding of AllocationEnumerator.feasible_allocations_with_new_item
(allocations.py lines 59-85).  For each agent index i below n, if the
predicate accepts adding the new item to bundle i, emit the allocation whose
bundle i is extended by the new item (a fresh copy; positions other than i are
shared).  `current.getD i []` is Python `current_allocation[i]`: every caller
passes an allocation of length n, so the index is always in range. -/
def feasible_allocations_with_new_item (n : Nat) (P : List Item → Item → Bool)
    (current : List (List Item)) (newItem : Item) : List (List (List Item)) :=
  (List.range n).filterMap (fun i =>
    if P (current.getD i []) newItem then
      some (current.set i (current.getD i [] ++ [newItem]))
    else none)

/-- Embedding of AllocationEnumerator.feasible_allocations_starting_at_index
(allocations.py lines 87-127).  `items.get? idx` models the Python indexing
`self.all_items[first_new_item_index]`, which raises IndexError when the index
is out of range (this happens exactly when the enumerator is started on an
empty item set).  The generator is eager here: the list of yielded allocations
is returned; recursive calls are always in range, so no error arises below the
top level. -/
def feasible_allocations_starting_at_index (n : Nat) (P : List Item → Item → Bool)
    (items : List Item) (current : List (List Item)) (idx : Nat) :
    Except String (List (List (List Item))) :=
  match items.get? idx with
  | none => .error "IndexError: list index out of range"
  | some nextItem =>
    if h : idx + 1 < items.length then
      (List.mapM (fun a => feasible_allocations_starting_at_index n P items a (idx + 1))
        (feasible_allocations_with_new_item n P current nextItem)).map List.flatten
    else
      .ok (feasible_allocations_with_new_item n P current nextItem)
termination_by items.length - idx
decreasing_by omega

/-- The constructor of AllocationEnumerator sorts the item set:
`self.all_items = sorted(list(all_items))`.  The input set is modelled as a
list of items; `dedup` captures set formation and `insertionSort` the (stable)
Python sort. -/
def enumeratorItems (allItems : List Item) : List Item :=
  (allItems.dedup).insertionSort (· ≤ ·)

/-- Embedding of AllocationEnumerator.feasible_allocations
(allocations.py lines 129-146): start from n empty bundles at item index 0. -/
def feasible_allocations (allItems : List Item) (n : Nat) (P : List Item → Item → Bool) :
    Except String (List (List (List Item))) :=
  feasible_allocations_starting_at_index n P (enumeratorItems allItems)
    (List.replicate n []) 0

/-- Embedding of feasibility.everything_is_feasible. -/
def everything_is_feasible (_bundle : List Item) (_newItem : Item) : Bool :=
  true

/-- Embedding of feasibility.at_most_1_item_per_agent. -/
def at_most_1_item_per_agent (bundle : List Item) (_newItem : Item) : Bool :=
  bundle.length == 0

/-- A feasibility predicate is downward closed when feasibility of adding an
item to a bundle implies feasibility of adding it to any sub-bundle (the
documented precondition of the enumerator). -/
def DownwardClosed (P : List Item → Item → Bool) : Prop :=
  ∀ (b c : List Item) (x : Item), c ⊆ b → P b x = true → P c x = true

/-- A bundle is feasible when rebuilt item-by-item in placement order: every
step of its construction was accepted by the predicate. -/
inductive StepFeasible (P : List Item → Item → Bool) : List Item → Prop where
  | nil : StepFeasible P []
  | snoc (b : List Item) (x : Item) : StepFeasible P b → P b x = true →
      StepFeasible P (b ++ [x])

/-- Modelled from the spec: the ordering guarantee of section 4.1 speaks of
the lexicographic order induced by item order and agent-index order of
placement.  A placement word lists, for each item in canonical order, the
agent index receiving it; this function enumerates all words of length k over
agent indices below n in exactly that lexicographic, depth-first,
agent-major order. -/
def lexPlacementWords (n : Nat) : Nat → List (List Nat)
  | 0 => [[]]
  | k + 1 => (List.range n).flatMap (fun i => (lexPlacementWords n k).map (fun w => i :: w))

/-- Modelled from the spec: apply a placement word to a starting allocation,
placing each remaining item into the bundle named by the word and checking the
feasibility predicate at every step; fails if some step is rejected or the
word length does not match the number of remaining items. -/
def placeByWord (P : List Item → Item → Bool) :
    List (List Item) → List Item → List Nat → Option (List (List Item))
  | current, [], [] => some current
  | current, x :: xs, i :: w =>
    if P (current.getD i []) x then
      placeByWord P (current.set i (current.getD i [] ++ [x])) xs w
    else none
  | _, _, _ => none

end Enumerator

section EnumeratorLemmas

variable {Item : Type} [DecidableEq Item] [LinearOrder Item]

/-- A mapM over Except whose function succeeds everywhere returns the list of
results. -/
theorem mapM_ok_of_forall {α β : Type} (f : α → Except String β) (g : α → β)
    (l : List α) (h : ∀ a ∈ l, f a = .ok (g a)) :
    List.mapM f l = Except.ok (l.map g) := by
  rw [← List.mapM'_eq_mapM]
  induction l with
  | nil => rfl
  | cons a t ih =>
    rw [List.mapM'_cons, h a (by simp), ih (fun b hb => h b (by simp [hb]))]
    rfl

/-- filterMap is the flatMap of optional singletons. -/
theorem filterMap_eq_flatMap_toList {α β : Type} (f : α → Option β) (l : List α) :
    l.filterMap f = l.flatMap (fun a => (f a).toList) := by
  induction l with
  | nil => rfl
  | cons a t ih => cases h : f a <;> simp [List.filterMap_cons, h, ih]

/-- Flattening the image of a filterMap is a flatMap over optional results. -/
theorem flatten_map_filterMap {α β γ : Type} (B : α → Option β) (F : β → List γ)
    (l : List α) :
    ((l.filterMap B).map F).flatten = l.flatMap (fun a => ((B a).map F).getD []) := by
  induction l with
  | nil => rfl
  | cons a t ih => cases hB : B a <;> simp [List.filterMap_cons, hB, ih]

/-- A filterMap whose function is some everywhere preserves length. -/
theorem length_filterMap_of_isSome {α β : Type} (f : α → Option β) (l : List α)
    (h : ∀ a ∈ l, (f a).isSome) : (l.filterMap f).length = l.length := by
  induction l with
  | nil => rfl
  | cons a t ih =>
    rcases Option.isSome_iff_exists.mp (h a (by simp)) with ⟨b, hb⟩
    simp [List.filterMap_cons, hb, ih (fun x hx => h x (by simp [hx]))]

/-- Congruence for flatMap. -/
theorem flatMap_congr_mem {α β : Type} {l : List α} {f g : α → List β}
    (h : ∀ a ∈ l, f a = g a) : l.flatMap f = l.flatMap g := by
  induction l with
  | nil => rfl
  | cons a t ih =>
    simp only [List.flatMap_cons, h a (by simp), ih (fun b hb => h b (by simp [hb]))]

/-- A condition independent of the element commutes with filterMap. -/
theorem filterMap_ite {α β : Type} (c : Prop) [Decidable c] (H : α → Option β)
    (l : List α) :
    (l.filterMap (fun a => if c then H a else none)) =
      if c then l.filterMap H else [] := by
  by_cases hc : c <;> simp [hc]

/-- Every placement word has the announced length and letters below n. -/
theorem lexPlacementWords_mem (n : Nat) :
    ∀ (k : Nat) (w : List Nat), w ∈ lexPlacementWords n k →
      w.length = k ∧ ∀ i ∈ w, i < n := by
  intro k
  induction k with
  | zero =>
    intro w hw
    simp [lexPlacementWords] at hw
    simp [hw]
  | succ k ih =>
    intro w hw
    simp only [lexPlacementWords, List.mem_flatMap, List.mem_map,
      List.mem_range] at hw
    rcases hw with ⟨i, hi, v, hv, rfl⟩
    rcases ih v hv with ⟨hlen, hmem⟩
    refine ⟨by simp [hlen], ?_⟩
    intro j hj
    rcases List.mem_cons.mp hj with rfl | hj
    · exact hi
    · exact hmem j hj

/-- There are exactly n ^ k placement words of length k. -/
theorem lexPlacementWords_length (n : Nat) :
    ∀ k : Nat, (lexPlacementWords n k).length = n ^ k := by
  intro k
  induction k with
  | zero => rfl
  | succ k ih =>
    simp [lexPlacementWords, List.length_flatMap, Function.comp_def, ih,
      Finset.sum_const, pow_succ, Nat.mul_comm]

/-- A flatMap of singletons is a map. -/
theorem flatMap_pure {α β : Type} (f : α → β) (l : List α) :
    l.flatMap (fun a => [f a]) = l.map f := by
  induction l with
  | nil => rfl
  | cons a t ih => simp [ih]

/-- Words of length one. -/
theorem lexPlacementWords_one (n : Nat) :
    lexPlacementWords n 1 = (List.range n).map (fun i => [i]) := by
  show (List.range n).flatMap (fun i => (lexPlacementWords n 0).map (fun w => i :: w)) = _
  exact flatMap_pure (fun i => [i]) (List.range n)

/-- The recursive generator feasible_allocations_starting_at_index explores
placement words in lexicographic, depth-first, agent-major order: with k
items left to place it returns exactly the successful applications of the
k-letter placement words, in word order. -/
theorem feasible_allocations_starting_at_index_eq (n : Nat)
    (P : List Item → Item → Bool) (items : List Item) :
    ∀ (k : Nat) (current : List (List Item)) (idx : Nat),
      idx + k = items.length → 1 ≤ k →
      feasible_allocations_starting_at_index n P items current idx =
        Except.ok ((lexPlacementWords n k).filterMap
          (fun w => placeByWord P current (items.drop idx) w)) := by
  intro k
  induction k with
  | zero => intro current idx _ h1; omega
  | succ k ih =>
    intro current idx hlen _
    have hidx : idx < items.length := by omega
    have hget : items.get? idx = some (items[idx]) := by
      rw [List.get?_eq_getElem?, List.getElem?_eq_getElem hidx]
    have hdrop : items.drop idx = items[idx] :: items.drop (idx + 1) :=
      List.drop_eq_getElem_cons hidx
    rw [feasible_allocations_starting_at_index, hget]
    by_cases hk : k = 0
    · subst hk
      have hnlt : ¬ (idx + 1 < items.length) := by omega
      simp only [hnlt, dite_false]
      have hdrop1 : items.drop (idx + 1) = [] := by
        apply List.drop_eq_nil_of_le; omega
      rw [hdrop, hdrop1, lexPlacementWords_one]
      refine congrArg Except.ok ?_
      rw [List.filterMap_map, feasible_allocations_with_new_item]
      apply List.filterMap_congr
      intro i _
      by_cases hP : P (current.getD i []) (items[idx]) <;>
        simp [Function.comp, placeByWord, hP]
    · have hlt : idx + 1 < items.length := by omega
      simp only [hlt, dite_true]
      rw [mapM_ok_of_forall _
        (fun a => (lexPlacementWords n k).filterMap
          (fun w => placeByWord P a (items.drop (idx + 1)) w))
        _ (fun a _ => ih a (idx + 1) (by omega) (by omega))]
      show Except.ok _ = _
      refine congrArg Except.ok ?_
      rw [hdrop, feasible_allocations_with_new_item, flatten_map_filterMap,
        lexPlacementWords, List.filterMap_flatMap]
      apply flatMap_congr_mem
      intro i _
      rw [List.filterMap_map]
      have hpw : ∀ w : List Nat,
          placeByWord P current (items[idx] :: items.drop (idx + 1)) (i :: w) =
            if P (current.getD i []) (items[idx]) then
              placeByWord P (current.set i (current.getD i [] ++ [items[idx]]))
                (items.drop (idx + 1)) w
            else none := fun w => rfl
      by_cases hP : P (current.getD i []) (items[idx])
      · simp only [Function.comp_def, hdrop, hpw, hP, if_true]
        simp
      · simp only [Function.comp_def, hdrop, hpw, hP, if_false]
        simp

end EnumeratorLemmas

section EnumeratorClaims

variable {Item : Type} [DecidableEq Item] [LinearOrder Item]

/-- Extending the bundle at an in-range position permutes the flattened
allocation with the new item in front. -/
theorem flatten_set_append_perm {α : Type} :
    ∀ (cur : List (List α)) (i : Nat), i < cur.length → ∀ (x : α),
      (cur.set i (cur.getD i [] ++ [x])).flatten.Perm (x :: cur.flatten) := by
  intro cur
  induction cur with
  | nil => intro i hi; simp at hi
  | cons b t ih =>
    intro i hi x
    cases i with
    | zero =>
      simp only [List.set_cons_zero, List.getD_cons_zero, List.flatten_cons]
      rw [List.append_assoc]
      exact List.perm_middle
    | succ j =>
      simp only [List.set_cons_succ, List.getD_cons_succ, List.flatten_cons]
      have hj : j < t.length := by simpa using hi
      exact (List.Perm.append_left b (ih j hj x)).trans List.perm_middle

/-- Structural facts about a successful word placement: the allocation keeps
its length, its flattened contents gain exactly the placed items, and every
bundle stays step-feasible. -/
theorem placeByWord_some_spec (P : List Item → Item → Bool) :
    ∀ (w : List Nat) (rest : List Item) (cur alloc : List (List Item)),
      (∀ i ∈ w, i < cur.length) →
      placeByWord P cur rest w = some alloc →
      alloc.length = cur.length ∧
      alloc.flatten.Perm (rest ++ cur.flatten) ∧
      ((∀ b ∈ cur, StepFeasible P b) → ∀ b ∈ alloc, StepFeasible P b) := by
  intro w
  induction w with
  | nil =>
    intro rest cur alloc _ hplace
    cases rest with
    | nil =>
      simp only [placeByWord, Option.some.injEq] at hplace
      subst hplace
      exact ⟨rfl, by simp, fun h => h⟩
    | cons x xs => simp [placeByWord] at hplace
  | cons i w ih =>
    intro rest cur alloc hlt hplace
    cases rest with
    | nil => simp [placeByWord] at hplace
    | cons x xs =>
      have hi : i < cur.length := hlt i (by simp)
      have hstepEq : placeByWord P cur (x :: xs) (i :: w) =
          if P (cur.getD i []) x then
            placeByWord P (cur.set i (cur.getD i [] ++ [x])) xs w
          else none := rfl
      by_cases hP : P (cur.getD i []) x
      · rw [hstepEq, if_pos hP] at hplace
        have hlt2 : ∀ j ∈ w, j < (cur.set i (cur.getD i [] ++ [x])).length := by
          intro j hj
          rw [List.length_set]
          exact hlt j (by simp [hj])
        rcases ih xs (cur.set i (cur.getD i [] ++ [x])) alloc hlt2 hplace with
          ⟨hlen, hperm, hstep⟩
        refine ⟨by rw [hlen, List.length_set], ?_, ?_⟩
        · refine (hperm.trans ?_)
          refine (List.Perm.append_left xs (flatten_set_append_perm cur i hi x)).trans ?_
          exact List.perm_middle
        · intro hcur
          apply hstep
          intro b hb
          rcases List.mem_or_eq_of_mem_set hb with hb | rfl
          · exact hcur b hb
          · refine StepFeasible.snoc _ _ ?_ hP
            have hmem : cur.getD i [] ∈ cur := by
              rw [List.getD_eq_getElem _ _ hi]
              exact List.getElem_mem hi
            exact hcur _ hmem
      · rw [hstepEq, if_neg hP] at hplace
        cases hplace

/-- The canonical item list of the enumerator has no duplicates. -/
theorem enumeratorItems_nodup (allItems : List Item) :
    (enumeratorItems allItems).Nodup :=
  (List.perm_insertionSort _ _).symm.nodup (List.nodup_dedup allItems)

/-- Membership in the canonical item list is membership in the input. -/
theorem enumeratorItems_mem (allItems : List Item) (x : Item) :
    x ∈ enumeratorItems allItems ↔ x ∈ allItems := by
  rw [enumeratorItems, List.mem_insertionSort, List.mem_dedup]

/-- The canonical item list has one entry per distinct input item. -/
theorem enumeratorItems_length (allItems : List Item) :
    (enumeratorItems allItems).length = allItems.dedup.length :=
  List.length_insertionSort _ _

/-- The flattening of the initial allocation is empty. -/
theorem flatten_replicate_nil {α : Type} (n : Nat) :
    (List.replicate n ([] : List α)).flatten = [] := by
  induction n with
  | zero => rfl
  | succ m ih => simp [List.replicate_succ, ih]

/-- C1: for every finite item set, every positive agent count and every
downward-closed feasibility predicate, every allocation yielded by the
enumerator has one bundle per agent, pairwise disjoint bundles whose union is
the full item set, and every bundle accepted by the predicate at every step
when rebuilt in placement order. -/
theorem enumerator_invariants (allItems : List Item) (n : Nat)
    (P : List Item → Item → Bool) (hdc : DownwardClosed P) (hn : 0 < n)
    (out : List (List (List Item)))
    (hout : feasible_allocations allItems n P = Except.ok out) :
    ∀ alloc ∈ out,
      alloc.length = n ∧
      List.Pairwise List.Disjoint alloc ∧
      (∀ x : Item, (∃ b ∈ alloc, x ∈ b) ↔ x ∈ allItems) ∧
      (∀ b ∈ alloc, StepFeasible P b) := by
  intro alloc halloc
  by_cases hM : (enumeratorItems allItems).length = 0
  · rw [feasible_allocations] at hout
    rw [feasible_allocations_starting_at_index] at hout
    rw [List.length_eq_zero] at hM
    rw [hM] at hout
    simp at hout
  · have hM1 : 1 ≤ (enumeratorItems allItems).length := by omega
    rw [feasible_allocations,
      feasible_allocations_starting_at_index_eq n P (enumeratorItems allItems)
        (enumeratorItems allItems).length (List.replicate n []) 0 (by omega) hM1]
      at hout
    rcases Except.ok.inj hout with rfl
    rcases List.mem_filterMap.mp halloc with ⟨w, hw, hplace⟩
    rcases lexPlacementWords_mem n _ w hw with ⟨hwlen, hwlt⟩
    rw [List.drop_zero] at hplace
    have hlt : ∀ i ∈ w, i < (List.replicate n ([] : List Item)).length := by
      intro i hi; rw [List.length_replicate]; exact hwlt i hi
    rcases placeByWord_some_spec P w (enumeratorItems allItems)
      (List.replicate n []) alloc hlt hplace with ⟨hlen, hperm, hstep⟩
    have hperm2 : alloc.flatten.Perm (enumeratorItems allItems) := by
      simpa [flatten_replicate_nil] using hperm
    have hnodup : alloc.flatten.Nodup :=
      hperm2.symm.nodup (enumeratorItems_nodup allItems)
    refine ⟨by rw [hlen, List.length_replicate], ?_, ?_, ?_⟩
    · exact (List.nodup_flatten.mp hnodup).2
    · intro x
      rw [← List.mem_flatten, hperm2.mem_iff, enumeratorItems_mem]
    · exact hstep (by intro b hb; rw [List.eq_of_mem_replicate hb]; exact .nil)

/-- C1 witness: the invariants at a concrete run with items 0,1,2, two agents
and the unconstrained predicate, evaluated at the first yielded allocation. -/
theorem enumerator_invariants_witness :
    ([[0, 1, 2], []] : List (List Nat)).length = 2 ∧
    List.Pairwise List.Disjoint ([[0, 1, 2], []] : List (List Nat)) ∧
    (∀ x : Nat, (∃ b ∈ ([[0, 1, 2], []] : List (List Nat)), x ∈ b) ↔ x ∈ [0, 1, 2]) ∧
    (∀ b ∈ ([[0, 1, 2], []] : List (List Nat)), StepFeasible everything_is_feasible b) := by
  have hout : feasible_allocations [0, 1, 2] 2 everything_is_feasible =
      Except.ok ((lexPlacementWords 2 3).filterMap
        (fun w => placeByWord everything_is_feasible (List.replicate 2 [])
          (enumeratorItems [0, 1, 2]) w)) := by
    have h := feasible_allocations_starting_at_index_eq 2 everything_is_feasible
      (enumeratorItems [0, 1, 2]) 3 (List.replicate 2 []) 0 (by decide) (by decide)
    rw [feasible_allocations, h, List.drop_zero]
  exact enumerator_invariants [0, 1, 2] 2 everything_is_feasible
    (fun _ _ _ _ _ => rfl) (by decide) _ hout [[0, 1, 2], []] (by decide)

/-- With the unconstrained predicate every placement word of matching length
succeeds. -/
theorem placeByWord_everything_isSome :
    ∀ (w : List Nat) (rest : List Item) (cur : List (List Item)),
      w.length = rest.length →
      (placeByWord (everything_is_feasible) cur rest w).isSome := by
  intro w
  induction w with
  | nil =>
    intro rest cur h
    cases rest with
    | nil => simp [placeByWord]
    | cons x xs => simp at h
  | cons i w ih =>
    intro rest cur h
    cases rest with
    | nil => simp at h
    | cons x xs =>
      have hEq : placeByWord (everything_is_feasible) cur (x :: xs) (i :: w) =
          placeByWord (everything_is_feasible)
            (cur.set i (cur.getD i [] ++ [x])) xs w := rfl
      rw [hEq]
      exact ih xs _ (by simpa using h)

/-- C2 (amended): on an item set with at least one element, the enumerator
with the unconstrained predicate yields exactly n ^ M allocations, M the
number of distinct items.  (On the empty item set the enumerator raises an
IndexError instead; see the counterexample.) -/
theorem unconstrained_count (allItems : List Item) (n : Nat)
    (hM : 1 ≤ allItems.dedup.length) :
    ∃ out, feasible_allocations allItems n (everything_is_feasible) = Except.ok out ∧
      out.length = n ^ allItems.dedup.length := by
  have hlen : (enumeratorItems allItems).length = allItems.dedup.length :=
    enumeratorItems_length allItems
  have hM1 : 1 ≤ (enumeratorItems allItems).length := by omega
  refine ⟨(lexPlacementWords n (enumeratorItems allItems).length).filterMap
      (fun w => placeByWord (everything_is_feasible) (List.replicate n [])
        ((enumeratorItems allItems).drop 0) w), ?_, ?_⟩
  · rw [feasible_allocations]
    exact feasible_allocations_starting_at_index_eq n _ (enumeratorItems allItems)
      (enumeratorItems allItems).length (List.replicate n []) 0 (by omega) hM1
  · rw [length_filterMap_of_isSome, lexPlacementWords_length, hlen]
    intro w hw
    rcases lexPlacementWords_mem n _ w hw with ⟨hwlen, -⟩
    exact placeByWord_everything_isSome w _ _ (by simp [hwlen])

/-- C2 counterexample: on the empty item set the enumerator does not yield
n ^ 0 = 1 allocations; it raises an IndexError. -/
theorem unconstrained_count_empty_set :
    ¬ ∃ out, feasible_allocations ([] : List Nat) 2 (everything_is_feasible) =
        Except.ok out ∧ out.length = 2 ^ (([] : List Nat).dedup.length) := by
  rintro ⟨out, hout, -⟩
  rw [feasible_allocations] at hout
  rw [feasible_allocations_starting_at_index] at hout
  simp [enumeratorItems] at hout

/-- C2 witness: two items and three agents give nine allocations. -/
theorem unconstrained_count_witness :
    1 ≤ ([10, 20] : List Nat).dedup.length ∧
    ∃ out, feasible_allocations ([10, 20] : List Nat) 3 (everything_is_feasible) =
        Except.ok out ∧ out.length = 3 ^ ([10, 20] : List Nat).dedup.length :=
  ⟨by decide, unconstrained_count [10, 20] 3 (by decide)⟩

/-- C3: the enumerator yields allocations exactly as the lexicographic,
depth-first, agent-major enumeration of placement words, filtered by
step-feasibility; in particular on items x, y, z with three agents and the
singleton predicate it yields the six permutation allocations in exactly the
documented order. -/
theorem enumerator_lex_order :
    (∀ (Item : Type) [DecidableEq Item] [LinearOrder Item]
      (allItems : List Item) (n : Nat) (P : List Item → Item → Bool)
      (out : List (List (List Item))),
      feasible_allocations allItems n P = Except.ok out →
      out = (lexPlacementWords n (enumeratorItems allItems).length).filterMap
        (fun w => placeByWord P (List.replicate n []) (enumeratorItems allItems) w)) ∧
    feasible_allocations ['x', 'y', 'z'] 3 (at_most_1_item_per_agent) =
      Except.ok [[['x'], ['y'], ['z']], [['x'], ['z'], ['y']], [['y'], ['x'], ['z']],
        [['z'], ['x'], ['y']], [['y'], ['z'], ['x']], [['z'], ['y'], ['x']]] := by
  constructor
  · intro Item instE instL allItems n P out hout
    by_cases hM : (enumeratorItems allItems).length = 0
    · exfalso
      rw [feasible_allocations] at hout
      rw [feasible_allocations_starting_at_index] at hout
      rw [List.length_eq_zero] at hM
      rw [hM] at hout
      simp at hout
    · rw [feasible_allocations,
        feasible_allocations_starting_at_index_eq n P (enumeratorItems allItems)
          (enumeratorItems allItems).length (List.replicate n []) 0 (by omega)
          (by omega)] at hout
      rcases Except.ok.inj hout with rfl
      rw [List.drop_zero]
  · have h := feasible_allocations_starting_at_index_eq 3 (at_most_1_item_per_agent)
      (enumeratorItems ['x', 'y', 'z']) 3 (List.replicate 3 []) 0 (by decide) (by decide)
    rw [feasible_allocations, h]
    refine congrArg Except.ok ?_
    decide

/-- C3 witness: the general ordering statement applied to the concrete
three-item singleton-predicate run. -/
theorem enumerator_lex_order_witness :
    [[['x'], ['y'], ['z']], [['x'], ['z'], ['y']], [['y'], ['x'], ['z']],
      [['z'], ['x'], ['y']], [['y'], ['z'], ['x']], [['z'], ['y'], ['x']]] =
      (lexPlacementWords 3 (enumeratorItems ['x', 'y', 'z']).length).filterMap
        (fun w => placeByWord (at_most_1_item_per_agent) (List.replicate 3 [])
          (enumeratorItems ['x', 'y', 'z']) w) :=
  enumerator_lex_order.1 Char ['x', 'y', 'z'] 3 (at_most_1_item_per_agent) _
    enumerator_lex_order.2

end EnumeratorClaims

section Agents

variable {Item : Type} [DecidableEq Item]

/-- Embedding of agents.AdditiveAgent: a value per item, stored as an
association list (the Python dict in insertion order); names are omitted
(used only for tracing). -/
structure AdditiveAgent (Item : Type) [DecidableEq Item] where
  values : List (Item × Int)

/-- Embedding of AdditiveAgent.item_value (agents.py lines 90-94): the value
of a known item, zero for an unknown one. -/
def AdditiveAgent.item_value (ag : AdditiveAgent Item) (x : Item) : Int :=
  match ag.values.lookup x with
  | some v => v
  | none => 0

/-- Embedding of AdditiveAgent.value (agents.py lines 96-100): the sum of the
item values of the bundle. -/
def AdditiveAgent.value (ag : AdditiveAgent Item) (items : List Item) : Int :=
  (items.map ag.item_value).sum

/-- Embedding of AdditiveAgent.best_item_in_bundle (agents.py): the first
item attaining the maximal item value, in bundle iteration order (Python max
keeps the first maximum); none on an empty bundle (Python max raises
ValueError there). -/
def AdditiveAgent.best_item_in_bundle (ag : AdditiveAgent Item) (items : List Item) :
    Option Item :=
  match items with
  | [] => none
  | x :: xs => some (xs.foldl (fun b y => if ag.item_value b < ag.item_value y then y else b) x)

/-- Embedding of AdditiveAgent.num_items_in_bundle (agents.py): the number of
items of the bundle present in the value table. -/
def AdditiveAgent.num_items_in_bundle (ag : AdditiveAgent Item) (items : List Item) : Nat :=
  (items.filter (fun x => (ag.values.lookup x).isSome)).length

/-- The first argument of is_envy_free and is_EF1 is either a bundle or an
already computed value (Python dispatches on isinstance). -/
inductive BundleOrValue (Item : Type) where
  | bundle (b : List Item)
  | value (v : Int)

/-- Resolve the bundle-or-value argument to a number, as the isinstance
dispatch in agents.py lines 123-131 does. -/
def AdditiveAgent.resolve (ag : AdditiveAgent Item) : BundleOrValue Item → Int
  | .bundle b => ag.value b
  | .value v => v

/-- Embedding of AdditiveAgent.is_envy_free (agents.py lines 123-125). -/
def AdditiveAgent.is_envy_free (ag : AdditiveAgent Item) (my : BundleOrValue Item)
    (other : List Item) : Bool :=
  decide (ag.value other ≤ ag.resolve my)

/-- Embedding of AdditiveAgent.is_EF1 (agents.py lines 127-131).  The
comprehension `[self.values[item] for item in other_bundle]` looks keys up
directly in the dict, so an item absent from the value table raises KeyError;
this is the mapM over the bare lookups.  The guard makes the list non-empty,
so the max of the looked-up values defaults never. -/
def AdditiveAgent.is_EF1 (ag : AdditiveAgent Item) (my : BundleOrValue Item)
    (other : List Item) : Except String Bool :=
  if other.length = 0 then .ok true
  else
    match other.mapM (fun x => ag.values.lookup x) with
    | none => .error "KeyError"
    | some vals =>
      .ok (decide (ag.value other - vals.max?.getD 0 ≤ ag.resolve my))

/-- Short-circuiting conjunction over fallible boolean checks: stops at the
first error or the first false, like the early returns in fairness.is_EF1. -/
def exceptAll {α : Type} (f : α → Except String Bool) : List α → Except String Bool
  | [] => .ok true
  | x :: xs =>
    match f x with
    | .error e => .error e
    | .ok false => .ok false
    | .ok true => exceptAll f xs

/-- Embedding of fairness.is_EF1 (fairness.py lines 16-32): check the bundle
count, then for every agent (with its own bundle value precomputed) check EF1
against every other bundle.  The Python identity test `other_bundle is not
bundle` is modelled positionally: in the absence of aliasing the bundle
object at position i is identical only to itself. -/
def fairness_is_EF1 (allocation : List (List Item))
    (agents : List (AdditiveAgent Item)) : Except String Bool :=
  if allocation.length ≠ agents.length then
    .error "ValueError: allocation and agents have different sizes"
  else
    exceptAll (fun p =>
      exceptAll (fun q =>
        if q.1 = p.1 then .ok true
        else (p.2.1).is_EF1 (.value ((p.2.1).value p.2.2)) q.2)
        allocation.enum)
      ((agents.zip allocation).enum)

/-- Embedding of agents.AdditiveAgentWithCapacity: an additive agent plus a
maximum number of items that count towards the value. -/
structure AdditiveAgentWithCapacity (Item : Type) [DecidableEq Item] where
  capacity : Nat
  values : List (Item × Int)

/-- The underlying additive agent of a capacitated agent (the superclass). -/
def AdditiveAgentWithCapacity.toAdditive (ag : AdditiveAgentWithCapacity Item) :
    AdditiveAgent Item :=
  ⟨ag.values⟩

/-- Descending order on items by a value function: the Python sort key
-item_value. -/
def byDescValue {I : Type} (f : I → Int) : I → I → Prop :=
  fun a b => f b ≤ f a

instance {I : Type} (f : I → Int) : DecidableRel (byDescValue f) :=
  fun a b => Int.decLe (f b) (f a)

instance {I : Type} (f : I → Int) : IsTotal I (byDescValue f) :=
  ⟨fun a b => le_total (f b) (f a)⟩

instance {I : Type} (f : I → Int) : IsTrans I (byDescValue f) :=
  ⟨fun _ _ _ h1 h2 => le_trans h2 h1⟩

/-- Embedding of AdditiveAgentWithCapacity.value (agents.py lines 162-167):
sort the bundle by descending item value (a stable sort, as Python sorted),
keep the first capacity items, and take the additive value of that
sub-bundle. -/
def AdditiveAgentWithCapacity.value (ag : AdditiveAgentWithCapacity Item)
    (items : List Item) : Int :=
  ag.toAdditive.value
    ((items.insertionSort (byDescValue ag.toAdditive.item_value)).take ag.capacity)

/-- Embedding of AdditiveAgentWithCapacity.is_saturated (agents.py): the
bundle holds at least capacity many recognized items. -/
def AdditiveAgentWithCapacity.is_saturated (ag : AdditiveAgentWithCapacity Item)
    (items : List Item) : Bool :=
  decide (ag.capacity ≤ ag.toAdditive.num_items_in_bundle items)

end Agents

section CapacitatedValue

variable {Item : Type} [DecidableEq Item]

/-- The sum of any sub-multiset of a descending-sorted list is at most the sum
of the first card-many entries of the list. -/
theorem sum_le_sum_take_sorted :
    ∀ (l : List Int), l.Sorted (fun a b : Int => b ≤ a) →
      ∀ (m : Multiset Int), m ≤ ↑l → m.sum ≤ ((l.take (Multiset.card m)).sum : Int) := by
  intro l
  induction l with
  | nil =>
    intro _ m hm
    have : m = 0 := Multiset.le_zero.mp hm
    simp [this]
  | cons a l ih =>
    intro hsort m hm
    have ha : ∀ b ∈ l, b ≤ a := (List.sorted_cons.mp hsort).1
    have hsort2 : l.Sorted (fun a b : Int => b ≤ a) := (List.sorted_cons.mp hsort).2
    by_cases hmem : a ∈ m
    · have hme : m.erase a ≤ ↑l := by
        have h1 := Multiset.erase_le_erase a hm
        rwa [show ((a :: l : List Int) : Multiset Int) = a ::ₘ ↑l from rfl,
          Multiset.erase_cons_head] at h1
      have hcard : Multiset.card m = Multiset.card (m.erase a) + 1 := by
        have hpos : 0 < Multiset.card m :=
          Multiset.card_pos_iff_exists_mem.mpr ⟨a, hmem⟩
        rw [Multiset.card_erase_of_mem hmem, Nat.pred_eq_sub_one]
        omega
      have hsum : m.sum = a + (m.erase a).sum := by
        conv_lhs => rw [← Multiset.cons_erase hmem]
        rw [Multiset.sum_cons]
      rw [hsum, hcard, List.take_succ_cons, List.sum_cons]
      exact add_le_add_left (ih hsort2 (m.erase a) hme) a
    · have hml : m ≤ ↑l := by
        rw [Multiset.le_iff_count]
        intro b
        have hc := (Multiset.le_iff_count.mp hm) b
        rw [show ((a :: l : List Int) : Multiset Int) = a ::ₘ ↑l from rfl,
          Multiset.count_cons] at hc
        by_cases hb : b = a
        · subst hb
          simp [Multiset.count_eq_zero_of_not_mem hmem]
        · simpa [hb] using hc
      have hcard : Multiset.card m ≤ l.length := by
        have := Multiset.card_le_card hml
        simpa using this
      refine (ih hsort2 m hml).trans ?_
      cases hk : Multiset.card m with
      | zero => simp
      | succ j =>
        have hj : j < l.length := by omega
        rw [List.take_succ_cons, List.sum_cons, List.sum_take_succ l j hj]
        have : l[j] ≤ a := ha _ (List.getElem_mem hj)
        omega

/-- C4: the value assigned by a capacitated additive agent to a bundle is the
maximum, over all subsets of the bundle of size min(capacity, bundle size), of
the sum of the item values of the subset; one maximizing subset is attained
and every subset of that size is dominated. -/
theorem capacitated_value_is_max (ag : AdditiveAgentWithCapacity Item)
    (bundle : List Item) (hnd : bundle.Nodup) :
    (∃ s : Finset Item, s ⊆ bundle.toFinset ∧
      s.card = min ag.capacity bundle.length ∧
      s.sum ag.toAdditive.item_value = ag.value bundle) ∧
    (∀ s : Finset Item, s ⊆ bundle.toFinset →
      s.card = min ag.capacity bundle.length →
      s.sum ag.toAdditive.item_value ≤ ag.value bundle) := by
  classical
  set r : Item → Item → Prop := byDescValue ag.toAdditive.item_value with hr
  set sorted := bundle.insertionSort r with hsorted
  have hperm : sorted.Perm bundle := List.perm_insertionSort r bundle
  have hsortnd : sorted.Nodup := hperm.symm.nodup hnd
  have hsortlen : sorted.length = bundle.length := hperm.length_eq
  set best := sorted.take ag.capacity with hbest
  have hbestnd : best.Nodup := (List.take_sublist _ _).nodup hsortnd
  have hbestlen : best.length = min ag.capacity bundle.length := by
    rw [hbest, List.length_take, hsortlen]
  have hvalue : ag.value bundle = (best.map ag.toAdditive.item_value).sum := rfl
  have hsortedvals :
      (sorted.map ag.toAdditive.item_value).Sorted (fun a b : Int => b ≤ a) := by
    rw [List.Sorted, List.pairwise_map]
    exact List.sorted_insertionSort r bundle
  constructor
  · refine ⟨best.toFinset, ?_, ?_, ?_⟩
    · intro x hx
      rw [List.mem_toFinset] at hx ⊢
      exact hperm.mem_iff.mp (List.mem_of_mem_take hx)
    · rw [List.toFinset_card_of_nodup hbestnd, hbestlen]
    · rw [List.sum_toFinset _ hbestnd, hvalue]
  · intro s hsub hcard
    have hbundle_val : (bundle.toFinset : Finset Item).val = ↑bundle := by
      rw [← List.toFinset_eq hnd]
    have hsval : (s.val.map ag.toAdditive.item_value) ≤
        ↑(sorted.map ag.toAdditive.item_value) := by
      have h1 : s.val ≤ ↑bundle := by
        rw [← hbundle_val]
        exact Finset.val_le_iff.mpr hsub
      have h2 : (↑bundle : Multiset Item) = ↑sorted :=
        (Multiset.coe_eq_coe.mpr hperm).symm
      rw [show ((sorted.map ag.toAdditive.item_value : List Int) : Multiset Int) =
        Multiset.map ag.toAdditive.item_value ↑sorted from rfl]
      exact Multiset.map_le_map (h2 ▸ h1)
    have hkey := sum_le_sum_take_sorted (sorted.map ag.toAdditive.item_value)
      hsortedvals (s.val.map ag.toAdditive.item_value) hsval
    rw [Finset.sum_eq_multiset_sum]
    have hcard2 : Multiset.card (s.val.map ag.toAdditive.item_value) =
        min ag.capacity bundle.length := by
      rw [Multiset.card_map]
      exact hcard
    rw [hcard2] at hkey
    refine hkey.trans (le_of_eq ?_)
    have hlenmap : (sorted.map ag.toAdditive.item_value).length = bundle.length := by
      rw [List.length_map, hsortlen]
    have e1 : (sorted.map ag.toAdditive.item_value).take (min ag.capacity bundle.length) =
        (sorted.map ag.toAdditive.item_value).take ag.capacity := by
      rcases Nat.le_total ag.capacity bundle.length with h | h
      · rw [min_eq_left h]
      · rw [min_eq_right h, List.take_of_length_le (le_of_eq hlenmap),
          List.take_of_length_le (by rw [hlenmap]; exact h)]
    rw [e1, hvalue, hbest, List.map_take]

/-- C4 witness: a capacity-2 agent over four items; the invariant evaluated on
the full bundle. -/
theorem capacitated_value_is_max_witness :
    ([1, 2, 3, 4] : List Nat).Nodup ∧
    ((∃ s : Finset Nat,
        s ⊆ ([1, 2, 3, 4] : List Nat).toFinset ∧
        s.card = min 2 ([1, 2, 3, 4] : List Nat).length ∧
        s.sum (AdditiveAgentWithCapacity.toAdditive
          ⟨2, [(1, 1), (2, 2), (3, 3), (4, 4)]⟩).item_value =
          AdditiveAgentWithCapacity.value ⟨2, [(1, 1), (2, 2), (3, 3), (4, 4)]⟩
            [1, 2, 3, 4]) ∧
      (∀ s : Finset Nat, s ⊆ ([1, 2, 3, 4] : List Nat).toFinset →
        s.card = min 2 ([1, 2, 3, 4] : List Nat).length →
        s.sum (AdditiveAgentWithCapacity.toAdditive
          ⟨2, [(1, 1), (2, 2), (3, 3), (4, 4)]⟩).item_value ≤
          AdditiveAgentWithCapacity.value ⟨2, [(1, 1), (2, 2), (3, 3), (4, 4)]⟩
            [1, 2, 3, 4])) :=
  ⟨by decide, capacitated_value_is_max ⟨2, [(1, 1), (2, 2), (3, 3), (4, 4)]⟩
    [1, 2, 3, 4] (by decide)⟩

end CapacitatedValue

section FairnessClaims

variable {Item : Type} [DecidableEq Item]

/-- A mapM over Option whose function succeeds everywhere returns the list of
results. -/
theorem option_mapM_eq_some_map {α β : Type} (f : α → Option β) (g : α → β)
    (l : List α) (h : ∀ a ∈ l, f a = some (g a)) :
    l.mapM f = some (l.map g) := by
  rw [← List.mapM'_eq_mapM]
  induction l with
  | nil => rfl
  | cons a t ih =>
    rw [List.mapM'_cons, h a (by simp), ih (fun b hb => h b (by simp [hb]))]
    rfl

/-- A mapM over Option fails when the function fails somewhere. -/
theorem option_mapM_eq_none {α β : Type} (f : α → Option β) :
    ∀ (l : List α), (∃ x ∈ l, f x = none) → l.mapM f = none := by
  intro l
  rw [← List.mapM'_eq_mapM]
  induction l with
  | nil => rintro ⟨x, hx, -⟩; cases hx
  | cons a t ih =>
    rintro ⟨x, hx, hfx⟩
    rw [List.mapM'_cons]
    rcases List.mem_cons.mp hx with rfl | hx
    · rw [hfx]; rfl
    · cases hfa : f a
      · rfl
      · rw [ih ⟨x, hx, hfx⟩]; rfl

/-- A successful lookup returns one of the stored values. -/
theorem lookup_mem_values :
    ∀ (l : List (Item × Int)) (x : Item) (v : Int),
      l.lookup x = some v → ∃ p ∈ l, p.2 = v := by
  intro l
  induction l with
  | nil => intro x v h; cases h
  | cons p t ih =>
    intro x v h
    rcases p with ⟨k, b⟩
    rw [List.lookup_cons] at h
    cases hk : x == k with
    | true =>
      rw [hk] at h
      injection h with hbv
      exact ⟨(k, b), by simp, hbv⟩
    | false =>
      rw [hk] at h
      rcases ih x v h with ⟨q, hq, hqv⟩
      exact ⟨q, by simp [hq], hqv⟩

/-- A lookup on a key absent from the association list fails. -/
theorem lookup_eq_none_of_forall :
    ∀ (l : List (Item × Int)) (x : Item), (∀ p ∈ l, p.1 ≠ x) → l.lookup x = none := by
  intro l
  induction l with
  | nil => intro x _; rfl
  | cons p t ih =>
    intro x h
    rcases p with ⟨k, b⟩
    rw [List.lookup_cons]
    have hk : (x == k) = false := by
      have := h (k, b) (by simp)
      simp only [ne_eq] at this
      simp [beq_eq_false_iff_ne]
      exact fun e => this (by rw [e])
    rw [hk]
    exact ih x (fun p hp => h p (by simp [hp]))

/-- When one bundle is worth at least another in total, it is also worth at
least the other less its best item, provided all items of the other bundle
are known to the agent with nonnegative values (the single-pair core of the
EF implies EF1 relaxation). -/
theorem EF_implies_EF1_single (ag : AdditiveAgent Item) (my : BundleOrValue Item)
    (other : List Item)
    (hknown : ∀ x ∈ other, (ag.values.lookup x).isSome)
    (hnonneg : ∀ p ∈ ag.values, 0 ≤ p.2)
    (hef : ag.is_envy_free my other = true) :
    ag.is_EF1 my other = Except.ok true := by
  rw [AdditiveAgent.is_EF1]
  cases other with
  | nil => simp
  | cons y ys =>
    rw [if_neg (by simp)]
    have hlook : ∀ x ∈ y :: ys, ag.values.lookup x = some (ag.item_value x) := by
      intro x hx
      rcases Option.isSome_iff_exists.mp (hknown x hx) with ⟨v, hv⟩
      rw [hv, AdditiveAgent.item_value, hv]
    rw [option_mapM_eq_some_map _ ag.item_value _ hlook]
    have hbest : 0 ≤ ((y :: ys).map ag.item_value).max?.getD 0 := by
      cases hmax : ((y :: ys).map ag.item_value).max? with
      | none => simp
      | some m =>
        have hm : m ∈ (y :: ys).map ag.item_value :=
          List.max?_mem (fun a b => max_choice a b) hmax
        rcases List.mem_map.mp hm with ⟨x, hx, rfl⟩
        rcases Option.isSome_iff_exists.mp (hknown x hx) with ⟨v, hv⟩
        rcases lookup_mem_values ag.values x v hv with ⟨p, hp, hpv⟩
        rw [AdditiveAgent.item_value, hv, Option.getD_some]
        rw [← hpv]
        exact hnonneg p hp
    rw [AdditiveAgent.is_envy_free, decide_eq_true_eq] at hef
    refine congrArg Except.ok ?_
    rw [decide_eq_true_eq]
    omega

/-- exceptAll returns true when every check returns true. -/
theorem exceptAll_ok_true {α : Type} (f : α → Except String Bool) :
    ∀ (l : List α), (∀ x ∈ l, f x = .ok true) → exceptAll f l = .ok true := by
  intro l
  induction l with
  | nil => intro _; rfl
  | cons a t ih =>
    intro h
    rw [exceptAll, h a (by simp)]
    exact ih (fun x hx => h x (by simp [hx]))

/-- C5 (amended): when the other bundle only holds items known to the agent
with nonnegative values, envy-freeness implies EF1, both for a single pair of
bundles and, consequently, for the allocation-level EF1 check against agents
that are envy-free of every other bundle. -/
theorem envy_free_implies_EF1 :
    (∀ {I : Type} [DecidableEq I] (ag : AdditiveAgent I)
      (my : BundleOrValue I) (other : List I),
      (∀ x ∈ other, (ag.values.lookup x).isSome) →
      (∀ p ∈ ag.values, 0 ≤ p.2) →
      ag.is_envy_free my other = true →
      ag.is_EF1 my other = Except.ok true) ∧
    (∀ {I : Type} [DecidableEq I] (allocation : List (List I))
      (agents : List (AdditiveAgent I)),
      allocation.length = agents.length →
      (∀ ag ∈ agents, ∀ p ∈ ag.values, 0 ≤ p.2) →
      (∀ ag ∈ agents, ∀ b ∈ allocation, ∀ x ∈ b, (ag.values.lookup x).isSome) →
      (∀ i j : Nat, i < agents.length → j < allocation.length → i ≠ j →
        (agents.getD i ⟨[]⟩).is_envy_free
          (.bundle (allocation.getD i [])) (allocation.getD j []) = true) →
      fairness_is_EF1 allocation agents = Except.ok true) := by
  constructor
  · intro I instI ag my other hknown hnonneg hef
    exact EF_implies_EF1_single ag my other hknown hnonneg hef
  · intro I instI allocation agents hlen hnonneg hknown hef
    rw [fairness_is_EF1, if_neg (by omega)]
    apply exceptAll_ok_true
    intro p hp
    rcases p with ⟨i, ag, b⟩
    rcases List.mem_enum hp with ⟨hi, hpz⟩
    have hzlen : (agents.zip allocation).length = agents.length := by
      rw [List.length_zip, hlen, min_self]
    have hi2 : i < agents.length := by rwa [hzlen] at hi
    have hi3 : i < allocation.length := by omega
    have hz : (agents.zip allocation)[i] = (agents[i], allocation[i]) :=
      List.getElem_zip
    rw [hz] at hpz
    have hag : ag = agents[i] := congrArg Prod.fst hpz
    have hb : b = allocation[i] := congrArg Prod.snd hpz
    apply exceptAll_ok_true
    intro q hq
    rcases q with ⟨j, ob⟩
    rcases List.mem_enum hq with ⟨hj, hob⟩
    by_cases hij : j = i
    · rw [if_pos hij]
    · rw [if_neg hij]
      have hagmem : ag ∈ agents := by rw [hag]; exact List.getElem_mem hi2
      have hobmem : ob ∈ allocation := by rw [hob]; exact List.getElem_mem hj
      apply EF_implies_EF1_single
      · intro x hx
        exact hknown ag hagmem ob hobmem x hx
      · exact hnonneg ag hagmem
      · have h := hef i j hi2 hj (fun e => hij e.symm)
        rw [List.getD_eq_getElem _ _ hi3, List.getD_eq_getElem _ _ hj,
          List.getD_eq_getElem _ _ hi2] at h
        rw [hag, hb, hob]
        exact h

/-- C5 counterexample: with negative item values envy-freeness does not imply
EF1.  The agent values item 1 at -3 and item 2 at -5; it does not envy the
bundle of item 2 (since -3 is at least -5), yet EF1 fails: removing the best
item of the other bundle (worth -5) leaves required value 0, above -3. -/
theorem envy_free_without_EF1 :
    AdditiveAgent.is_envy_free (⟨[(1, -3), (2, -5)]⟩ : AdditiveAgent Nat)
      (.bundle [1]) [2] = true ∧
    AdditiveAgent.is_EF1 (⟨[(1, -3), (2, -5)]⟩ : AdditiveAgent Nat)
      (.bundle [1]) [2] ≠ Except.ok true := by
  constructor
  · rfl
  · intro h
    have heval : AdditiveAgent.is_EF1 (⟨[(1, -3), (2, -5)]⟩ : AdditiveAgent Nat)
        (.bundle [1]) [2] = Except.ok false := rfl
    rw [heval] at h
    simp at h

/-- C5 witness: the amended implication at a concrete nonnegative agent. -/
theorem envy_free_implies_EF1_witness :
    AdditiveAgent.is_EF1 (⟨[(1, 1), (2, 2)]⟩ : AdditiveAgent Nat)
      (.bundle [2]) [1] = Except.ok true :=
  envy_free_implies_EF1.1 ⟨[(1, 1), (2, 2)]⟩ (.bundle [2]) [1]
    (by decide) (by decide) (by decide)

/-- Every member of a list of naturals is bounded by the foldr of max. -/
theorem le_foldr_max : ∀ (l : List Nat) (k : Nat), k ∈ l → k ≤ l.foldr max 0 := by
  intro l
  induction l with
  | nil => intro k hk; cases hk
  | cons a t ih =>
    intro k hk
    rcases List.mem_cons.mp hk with rfl | hk
    · exact le_max_left _ _
    · exact (ih k hk).trans (le_max_right _ _)

/-- C10: is_EF1 raises a KeyError whenever the other bundle is non-empty and
holds an item absent from the value table; and for every additive agent over
the naturals such an input exists, even though item_value treats the missing
item as contributing zero. -/
theorem is_EF1_keyerror :
    (∀ {I : Type} [DecidableEq I] (ag : AdditiveAgent I)
      (my : BundleOrValue I) (other : List I),
      other ≠ [] → (∃ x ∈ other, ag.values.lookup x = none) →
      ag.is_EF1 my other = Except.error "KeyError") ∧
    (∀ (ag : AdditiveAgent Nat) (my : BundleOrValue Nat),
      ∃ other : List Nat, other ≠ [] ∧
        (∃ x ∈ other, ag.values.lookup x = none ∧ ag.item_value x = 0) ∧
        ag.is_EF1 my other = Except.error "KeyError") := by
  have hmain : ∀ {I : Type} [DecidableEq I] (ag : AdditiveAgent I)
      (my : BundleOrValue I) (other : List I),
      other ≠ [] → (∃ x ∈ other, ag.values.lookup x = none) →
      ag.is_EF1 my other = Except.error "KeyError" := by
    intro I instI ag my other hne hmiss
    rw [AdditiveAgent.is_EF1,
      if_neg (by simpa using fun h => hne (List.length_eq_zero.mp h)),
      option_mapM_eq_none _ other hmiss]
  constructor
  · exact hmain
  · intro ag my
    set fresh := (ag.values.map (fun p => p.1)).foldr max 0 + 1 with hfresh
    have hnone : ag.values.lookup fresh = none := by
      apply lookup_eq_none_of_forall
      intro p hp
      have : p.1 ≤ (ag.values.map (fun q => q.1)).foldr max 0 :=
        le_foldr_max _ _ (List.mem_map.mpr ⟨p, hp, rfl⟩)
      omega
    refine ⟨[fresh], by simp, ⟨fresh, by simp, hnone, ?_⟩, ?_⟩
    · rw [AdditiveAgent.item_value, hnone]
    · exact hmain ag my [fresh] (by simp) ⟨fresh, by simp, hnone⟩

/-- C10 witness: a concrete agent knowing only item 1, checked against a
bundle holding the unknown item 2. -/
theorem is_EF1_keyerror_witness :
    AdditiveAgent.is_EF1 (⟨[(1, 5)]⟩ : AdditiveAgent Nat) (.bundle [1]) [2] =
      Except.error "KeyError" :=
  is_EF1_keyerror.1 ⟨[(1, 5)]⟩ (.bundle [1]) [2] (by decide) ⟨2, by decide, rfl⟩

end FairnessClaims

section StoreModel

variable {Item : Type} [DecidableEq Item]

/-- A heap of Python set objects: each bundle object lives at a position in
the store; an allocation at the object level is a list of references into the
store.  This store-passing view makes the sharing structure of the generator
explicit so that absence of mutation can be stated. -/
abbrev BundleStore (Item : Type) := List (List Item)

/-- One store extends another when it appends new objects after it, leaving
every existing cell untouched. -/
def StoreExtends (s t : BundleStore Item) : Prop := ∃ u, t = s ++ u

/-- Loop body of feasible_allocations_with_new_item at the object level
(allocations.py lines 80-85): read the bundle object referenced at position
i, and if the extension is feasible allocate one fresh object holding the
copied contents plus the new item, yielding the reference list with position
i redirected to the fresh object.  No existing cell is ever written. -/
def wniStep (P : List Item → Item → Bool) (x : Item) (current : List Nat)
    (acc : BundleStore Item × List (List Nat)) (i : Nat) :
    BundleStore Item × List (List Nat) :=
  if P (acc.1.getD (current.getD i 0) []) x then
    (acc.1 ++ [acc.1.getD (current.getD i 0) [] ++ [x]],
      acc.2 ++ [current.set i acc.1.length])
  else acc

/-- Store-passing embedding of feasible_allocations_with_new_item: run the
loop body for every agent index, returning the grown store and the yielded
reference lists in order. -/
def feasible_allocations_with_new_item_store (n : Nat)
    (P : List Item → Item → Bool) (store : BundleStore Item)
    (current : List Nat) (newItem : Item) :
    BundleStore Item × List (List Nat) :=
  (List.range n).foldl (wniStep P newItem current) (store, [])

/-- Store-passing embedding of the recursive search of
feasible_allocations_starting_at_index: process a worklist of sibling partial
allocations at the same item position depth-first, threading the store
through every branch and collecting the yielded reference lists in order. -/
def search_store (n : Nat) (P : List Item → Item → Bool) (items : List Item)
    (idx : Nat) : List (List Nat) → BundleStore Item →
    Except String (BundleStore Item × List (List Nat))
  | [], store => .ok (store, [])
  | a :: rest, store =>
    match items.get? idx with
    | none => .error "IndexError: list index out of range"
    | some nextItem =>
      let res := feasible_allocations_with_new_item_store n P store a nextItem
      if h : idx + 1 < items.length then
        match search_store n P items (idx + 1) res.2 res.1 with
        | .error e => .error e
        | .ok (store2, ys) =>
          match search_store n P items idx rest store2 with
          | .error e => .error e
          | .ok (store3, ys2) => .ok (store3, ys ++ ys2)
      else
        match search_store n P items idx rest res.1 with
        | .error e => .error e
        | .ok (store2, ys2) => .ok (store2, res.2 ++ ys2)
termination_by l _ => (items.length - idx, l.length)

/-- Store extension is reflexive. -/
theorem StoreExtends.refl' (s : BundleStore Item) : StoreExtends s s :=
  ⟨[], by simp⟩

/-- Store extension is transitive. -/
theorem StoreExtends.trans' {s t u : BundleStore Item}
    (h1 : StoreExtends s t) (h2 : StoreExtends t u) : StoreExtends s u := by
  rcases h1 with ⟨v, rfl⟩
  rcases h2 with ⟨w, rfl⟩
  exact ⟨v ++ w, by simp⟩

/-- Extension never grows shorter. -/
theorem StoreExtends.length_le {s t : BundleStore Item}
    (h : StoreExtends s t) : s.length ≤ t.length := by
  rcases h with ⟨u, rfl⟩
  simp

/-- Cells below the original length are untouched by an extension. -/
theorem StoreExtends.getD_eq {s t : BundleStore Item} (h : StoreExtends s t)
    (r : Nat) (hr : r < s.length) (d : List Item) : t.getD r d = s.getD r d := by
  rcases h with ⟨u, rfl⟩
  exact List.getD_append s u d r hr

/-- Fold invariant for the store-level new-item loop: the store only grows,
and every yielded reference list redirects exactly one in-range position to a
fresh cell holding the old contents of that bundle plus the new item, with
feasibility checked on the old contents. -/
theorem wniFold_spec (P : List Item → Item → Bool) (x : Item) (current : List Nat)
    (store : BundleStore Item)
    (hvalid : ∀ i : Nat, current.getD i 0 < store.length) :
    ∀ (l : List Nat) (cs : BundleStore Item) (outs : List (List Nat)),
      StoreExtends store cs →
      StoreExtends cs (l.foldl (wniStep P x current) (cs, outs)).1 ∧
      (∀ a ∈ (l.foldl (wniStep P x current) (cs, outs)).2,
        a ∈ outs ∨ ∃ i ∈ l, ∃ r, store.length ≤ r ∧ a = current.set i r ∧
          (l.foldl (wniStep P x current) (cs, outs)).1.getD r [] =
            store.getD (current.getD i 0) [] ++ [x] ∧
          P (store.getD (current.getD i 0) []) x = true) := by
  intro l
  induction l with
  | nil =>
    intro cs outs hext
    exact ⟨StoreExtends.refl' cs, fun a ha => Or.inl ha⟩
  | cons i t ih =>
    intro cs outs hext
    rw [List.foldl_cons]
    have hread : cs.getD (current.getD i 0) [] = store.getD (current.getD i 0) [] :=
      hext.getD_eq _ (hvalid i) []
    by_cases hP : P (cs.getD (current.getD i 0) []) x
    · have hstep : wniStep P x current (cs, outs) i =
          (cs ++ [cs.getD (current.getD i 0) [] ++ [x]],
            outs ++ [current.set i cs.length]) := by
        rw [wniStep, if_pos hP]
      rw [hstep]
      have hext2 : StoreExtends store
          (cs ++ [cs.getD (current.getD i 0) [] ++ [x]]) :=
        hext.trans' ⟨_, rfl⟩
      rcases ih (cs ++ [cs.getD (current.getD i 0) [] ++ [x]])
        (outs ++ [current.set i cs.length]) hext2 with ⟨hres1, hres2⟩
      refine ⟨StoreExtends.trans' ⟨_, rfl⟩ hres1, ?_⟩
      intro a ha
      rcases hres2 a ha with hin | ⟨j, hj, r, hr1, hr2, hr3, hr4⟩
      · rcases List.mem_append.mp hin with hin | hin
        · exact Or.inl hin
        · rcases List.mem_singleton.mp hin with rfl
          refine Or.inr ⟨i, by simp, cs.length, hext.length_le, rfl, ?_, ?_⟩
          · rw [hres1.getD_eq cs.length (by simp) []]
            rw [List.getD_append_right _ _ _ _ (le_refl _), Nat.sub_self, hread]
            rfl
          · rwa [hread] at hP
      · exact Or.inr ⟨j, by simp [hj], r, hr1, hr2, hr3, hr4⟩
    · have hstep : wniStep P x current (cs, outs) i = (cs, outs) := by
        rw [wniStep, if_neg hP]
      rw [hstep]
      rcases ih cs outs hext with ⟨hres1, hres2⟩
      refine ⟨hres1, ?_⟩
      intro a ha
      rcases hres2 a ha with hin | ⟨j, hj, r, hr1, hr2, hr3, hr4⟩
      · exact Or.inl hin
      · exact Or.inr ⟨j, by simp [hj], r, hr1, hr2, hr3, hr4⟩


/-- The new-item loop only ever appends to the store. -/
theorem wniFold_extends (P : List Item → Item → Bool) (x : Item)
    (current : List Nat) :
    ∀ (l : List Nat) (cs : BundleStore Item) (outs : List (List Nat)),
      StoreExtends cs (l.foldl (wniStep P x current) (cs, outs)).1 := by
  intro l
  induction l with
  | nil => intro cs outs; exact StoreExtends.refl' cs
  | cons i t ih =>
    intro cs outs
    rw [List.foldl_cons, wniStep]
    by_cases hP : P (cs.getD (current.getD i 0) []) x
    · rw [if_pos hP]
      exact StoreExtends.trans' ⟨_, rfl⟩ (ih _ _)
    · rw [if_neg hP]
      exact ih cs outs

/-- The store only ever grows along the whole search. -/
theorem search_store_extends (n : Nat) (P : List Item → Item → Bool)
    (items : List Item) :
    ∀ (idx : Nat) (allocs : List (List Nat)) (store store2 : BundleStore Item)
      (ys : List (List Nat)),
      search_store n P items idx allocs store = .ok (store2, ys) →
      StoreExtends store store2 := by
  intro idx allocs store
  induction idx, allocs, store using search_store.induct n P items with
  | case1 idx store =>
    intro store2 ys h
    rw [search_store] at h
    have h2 := Except.ok.inj h
    rw [show store2 = (store2, ys).1 from rfl, ← h2]
    exact StoreExtends.refl' store
  | case2 idx a rest store hget =>
    intro store2 ys h
    rw [search_store, hget] at h
    cases h
  | case3 idx a rest store nextItem hget res hlt e herr ih1 =>
    intro store2 ys h
    rw [search_store, hget] at h
    dsimp only at h
    rw [dif_pos hlt] at h
    rw [herr] at h
    exact Except.noConfusion h
  | case4 idx a rest store nextItem hget res hlt store3 ys1 hok1 e herr ih1 ih2 =>
    intro store2 ys h
    rw [search_store, hget] at h
    dsimp only at h
    rw [dif_pos hlt] at h
    simp only [hok1] at h
    rw [herr] at h
    exact Except.noConfusion h
  | case5 idx a rest store nextItem hget res hlt store3 ys1 hok1 store4 ys2 hok2 ih1 ih2 =>
    intro store2 ys h
    rw [search_store, hget] at h
    dsimp only at h
    rw [dif_pos hlt] at h
    simp only [hok1, hok2, Except.ok.injEq, Prod.mk.injEq] at h
    have hext1 : StoreExtends store
        (feasible_allocations_with_new_item_store n P store a nextItem).1 :=
      wniFold_extends P nextItem a (List.range n) store []
    refine StoreExtends.trans'
      (StoreExtends.trans' (StoreExtends.trans' hext1 (ih1 _ _ hok1)) (ih2 _ _ hok2)) ?_
    rw [h.1]
    exact StoreExtends.refl' _
  | case6 idx a rest store nextItem hget res hnlt e herr ih1 =>
    intro store2 ys h
    rw [search_store, hget] at h
    dsimp only at h
    rw [dif_neg hnlt] at h
    rw [herr] at h
    exact Except.noConfusion h
  | case7 idx a rest store nextItem hget res hnlt store3 ys2 hok ih1 =>
    intro store2 ys h
    rw [search_store, hget] at h
    dsimp only at h
    rw [dif_neg hnlt] at h
    simp only [hok, Except.ok.injEq, Prod.mk.injEq] at h
    have hext1 : StoreExtends store
        (feasible_allocations_with_new_item_store n P store a nextItem).1 :=
      wniFold_extends P nextItem a (List.range n) store []
    refine StoreExtends.trans' (StoreExtends.trans' hext1 (ih1 _ _ hok)) ?_
    rw [h.1]
    exact StoreExtends.refl' _

/-- C9: at the object level, feasible_allocations_with_new_item never writes
an existing store cell: after the loop every bundle of the input allocation
holds exactly the items it held before, and each yielded reference list is
the input with one in-range position redirected to a fresh copy of that
bundle extended by the new item; moreover the whole recursive search only
appends to the store, so bundles of allocations already yielded are never
mutated by the continued search. -/
theorem with_new_item_no_mutation :
    (∀ {I : Type} [DecidableEq I] (n : Nat) (P : List I → I → Bool)
      (store : BundleStore I) (current : List Nat) (x : I),
      (∀ i : Nat, current.getD i 0 < store.length) →
      (∀ r : Nat, r < store.length →
        (feasible_allocations_with_new_item_store n P store current x).1.getD r [] =
          store.getD r []) ∧
      (∀ a ∈ (feasible_allocations_with_new_item_store n P store current x).2,
        ∃ i ∈ List.range n, ∃ r, store.length ≤ r ∧ a = current.set i r ∧
          (feasible_allocations_with_new_item_store n P store current x).1.getD r [] =
            store.getD (current.getD i 0) [] ++ [x] ∧
          P (store.getD (current.getD i 0) []) x = true)) ∧
    (∀ {I : Type} [DecidableEq I] (n : Nat) (P : List I → I → Bool)
      (items : List I) (idx : Nat) (allocs : List (List Nat))
      (store store2 : BundleStore I) (ys : List (List Nat)),
      search_store n P items idx allocs store = .ok (store2, ys) →
      ∀ r : Nat, r < store.length → store2.getD r [] = store.getD r []) := by
  constructor
  · intro I instI n P store current x hvalid
    rcases wniFold_spec P x current store hvalid (List.range n) store []
      (StoreExtends.refl' store) with ⟨hext, hyield⟩
    constructor
    · intro r hr
      exact hext.getD_eq r hr []
    · intro a ha
      rcases hyield a ha with hin | hgood
      · cases hin
      · exact hgood
  · intro I instI n P items idx allocs store store2 ys h r hr
    exact (search_store_extends n P items idx allocs store store2 ys h).getD_eq r hr []

/-- C9 witness: one agent, one item, a store holding one bundle object with
one item; the loop leaves the original cell untouched and yields the
allocation pointing at the fresh extended copy, and the search as a whole
leaves the original cell untouched. -/
theorem with_new_item_no_mutation_witness :
    (([[7], [7, 9]] : BundleStore Nat).getD 0 [] = ([[7]] : BundleStore Nat).getD 0 []) ∧
    (∀ a ∈ (feasible_allocations_with_new_item_store 1 (everything_is_feasible)
        ([[7]] : BundleStore Nat) [0] 9).2,
      ∃ i ∈ List.range 1, ∃ r, ([[7]] : BundleStore Nat).length ≤ r ∧
        a = [0].set i r ∧
        (feasible_allocations_with_new_item_store 1 (everything_is_feasible)
          ([[7]] : BundleStore Nat) [0] 9).1.getD r [] =
          ([[7]] : BundleStore Nat).getD ([0].getD i 0) [] ++ [9] ∧
        everything_is_feasible (([[7]] : BundleStore Nat).getD ([0].getD i 0) []) 9 = true) := by
  have hvalid : ∀ i : Nat, ([0] : List Nat).getD i 0 < ([[7]] : BundleStore Nat).length := by
    intro i
    cases i with
    | zero => decide
    | succ j =>
      show ([0] : List Nat).getD (j + 1) 0 < 1
      rw [List.getD_eq_getElem?_getD]
      simp
  have h2 : search_store 1 (everything_is_feasible) [9] 0 [[0]]
      ([[7]] : BundleStore Nat) = Except.ok ([[7], [7, 9]], [[1]]) := by
    rw [search_store]
    rw [show ([9] : List Nat).get? 0 = some 9 from rfl]
    dsimp only
    rw [dif_neg (by decide)]
    rw [search_store]
    rfl
  constructor
  · exact (with_new_item_no_mutation.2 1 (everything_is_feasible) [9] 0 [[0]]
      [[7]] [[7], [7, 9]] [[1]] h2) 0 (by decide)
  · exact (with_new_item_no_mutation.1 1 (everything_is_feasible) [[7]] [0] 9 hvalid).2


end StoreModel

section NoCycles

variable {Item : Type} [DecidableEq Item]

/-- The nodes of the graph nx.Graph(list(bundle)): all edge endpoints. -/
def edgeNodes (bundle : List (Item × Item)) : List Item :=
  bundle.flatMap (fun e => [e.1, e.2])

/-- Embedding of bundle_graph.has_node. -/
def has_node (bundle : List (Item × Item)) (v : Item) : Bool :=
  decide (v ∈ edgeNodes bundle)

/-- Both orientations of every undirected edge. -/
def dirEdges (bundle : List (Item × Item)) : List (Item × Item) :=
  bundle ++ bundle.map Prod.swap

/-- One breadth-first expansion step: add every vertex directly reachable
from the current set along a directed edge. -/
def reachStep (bundle : List (Item × Item)) (s : Finset Item) : Finset Item :=
  s ∪ ((dirEdges bundle).filterMap (fun e => if e.1 ∈ s then some e.2 else none)).toFinset

/-- Embedding of nx.has_path: saturate the reachable set from a (enough
iterations to reach the fixed point) and test membership of b. -/
def nx_has_path (bundle : List (Item × Item)) (a b : Item) : Bool :=
  decide (b ∈ (reachStep bundle)^[(dirEdges bundle).length + 1] {a})

/-- Embedding of no_cycles (feasibility.py lines 28-56 and
cycle_free_allocations.py lines 18-46): the candidate edge is feasible iff
one of its endpoints is not in the graph of the bundle, or there is no path
between its endpoints. -/
def no_cycles (bundle : List (Item × Item)) (new_item : Item × Item) : Bool :=
  !has_node bundle new_item.1 || !has_node bundle new_item.2 ||
    !nx_has_path bundle new_item.1 new_item.2

/-- Connectivity in the undirected graph of the bundle edges: the reflexive
transitive closure of adjacency. -/
def ConnectedIn (bundle : List (Item × Item)) (a b : Item) : Prop :=
  Relation.ReflTransGen (fun u v => (u, v) ∈ bundle ∨ (v, u) ∈ bundle) a b

/-- Directed edges are exactly adjacency. -/
theorem mem_dirEdges (bundle : List (Item × Item)) (u v : Item) :
    (u, v) ∈ dirEdges bundle ↔ (u, v) ∈ bundle ∨ (v, u) ∈ bundle := by
  rw [dirEdges, List.mem_append, List.mem_map]
  constructor
  · rintro (h | ⟨e, he, hswap⟩)
    · exact Or.inl h
    · right
      rcases e with ⟨p, q⟩
      rw [Prod.swap_prod_mk] at hswap
      rcases Prod.mk.injEq .. ▸ hswap with ⟨rfl, rfl⟩
      exact he
  · rintro (h | h)
    · exact Or.inl h
    · exact Or.inr ⟨(v, u), h, rfl⟩

/-- Membership in one expansion step. -/
theorem mem_reachStep (bundle : List (Item × Item)) (s : Finset Item) (v : Item) :
    v ∈ reachStep bundle s ↔ v ∈ s ∨ ∃ u ∈ s, (u, v) ∈ dirEdges bundle := by
  rw [reachStep, Finset.mem_union, List.mem_toFinset, List.mem_filterMap]
  constructor
  · rintro (h | ⟨e, he, hsome⟩)
    · exact Or.inl h
    · right
      by_cases hmem : e.1 ∈ s
      · rw [if_pos hmem] at hsome
        injection hsome with h2
        exact ⟨e.1, hmem, by rcases e with ⟨p, q⟩; cases h2; exact he⟩
      · rw [if_neg hmem] at hsome
        cases hsome
  · rintro (h | ⟨u, hu, he⟩)
    · exact Or.inl h
    · exact Or.inr ⟨(u, v), he, by rw [if_pos hu]⟩

/-- Each step only grows the set. -/
theorem subset_reachStep (bundle : List (Item × Item)) (s : Finset Item) :
    s ⊆ reachStep bundle s :=
  Finset.subset_union_left

/-- The start set is contained in every iterate. -/
theorem subset_iterate_reachStep (bundle : List (Item × Item)) (s : Finset Item) :
    ∀ k : Nat, s ⊆ (reachStep bundle)^[k] s := by
  intro k
  induction k with
  | zero => exact subset_of_eq rfl
  | succ k ih =>
    rw [Function.iterate_succ_apply']
    exact ih.trans (subset_reachStep bundle _)

/-- Everything collected by the iteration is connected to the sources. -/
theorem iterate_reachStep_sound (bundle : List (Item × Item)) (a : Item) :
    ∀ (k : Nat) (s : Finset Item), (∀ v ∈ s, ConnectedIn bundle a v) →
      ∀ v ∈ (reachStep bundle)^[k] s, ConnectedIn bundle a v := by
  intro k
  induction k with
  | zero => intro s hs v hv; exact hs v hv
  | succ k ih =>
    intro s hs v hv
    rw [Function.iterate_succ_apply] at hv
    refine ih (reachStep bundle s) ?_ v hv
    intro w hw
    rcases (mem_reachStep bundle s w).mp hw with hw | ⟨u, hu, he⟩
    · exact hs w hw
    · exact Relation.ReflTransGen.tail (hs u hu) ((mem_dirEdges bundle u w).mp he)

/-- Every iterate stays inside the bound given by a and the edge targets. -/
theorem iterate_reachStep_bound (bundle : List (Item × Item)) (a : Item) :
    ∀ k : Nat, (reachStep bundle)^[k] {a} ⊆
      insert a (((dirEdges bundle).map Prod.snd).toFinset) := by
  intro k
  induction k with
  | zero =>
    intro v hv
    rw [Function.iterate_zero_apply, Finset.mem_singleton] at hv
    simp [hv]
  | succ k ih =>
    rw [Function.iterate_succ_apply']
    intro v hv
    rcases (mem_reachStep bundle _ v).mp hv with hv | ⟨u, _, he⟩
    · exact ih hv
    · rw [Finset.mem_insert, List.mem_toFinset]
      exact Or.inr (List.mem_map.mpr ⟨(u, v), he, rfl⟩)

/-- A fixed point of the iteration persists. -/
theorem iterate_stab_persists {α : Type} (f : α → α) (s : α) (m : Nat)
    (h : f^[m] s = f^[m + 1] s) : ∀ j : Nat, f^[m] s = f^[m + j] s := by
  intro j
  induction j with
  | zero => rfl
  | succ j ih =>
    rw [show m + (j + 1) = (m + j) + 1 from rfl, Function.iterate_succ_apply', ← ih]
    exact h.trans (Function.iterate_succ_apply' f m s)

/-- While the iteration keeps changing, the cardinality keeps growing. -/
theorem iterate_card_grow (f : Finset Item → Finset Item)
    (hmono : ∀ s : Finset Item, s ⊆ f s) (s : Finset Item) :
    ∀ n : Nat, (∀ m : Nat, m < n → f^[m] s ≠ f^[m + 1] s) →
      s.card + n ≤ (f^[n] s).card := by
  intro n
  induction n with
  | zero => intro _; simp
  | succ n ih =>
    intro h
    have h1 : s.card + n ≤ (f^[n] s).card := ih (fun m hm => h m (by omega))
    have hne : f^[n] s ≠ f^[n + 1] s := h n (by omega)
    have hsub : f^[n] s ⊂ f^[n + 1] s := by
      rw [Function.iterate_succ_apply']
      refine ssubset_of_ne_of_subset ?_ (hmono _)
      exact fun e => hne (e.trans (Function.iterate_succ_apply' f n s).symm)
    have := Finset.card_lt_card hsub
    omega

/-- The saturation used in nx_has_path really reaches a fixed point. -/
theorem reachClosure_fixed (bundle : List (Item × Item)) (a : Item) :
    reachStep bundle ((reachStep bundle)^[(dirEdges bundle).length + 1] {a}) =
      (reachStep bundle)^[(dirEdges bundle).length + 1] {a} := by
  set N := (dirEdges bundle).length + 1 with hN
  rw [← Function.iterate_succ_apply' (reachStep bundle) N ({a} : Finset Item)]
  by_contra hne
  have hne2 : (reachStep bundle)^[N] ({a} : Finset Item) ≠
      (reachStep bundle)^[N + 1] {a} := fun e => hne e.symm
  have hall : ∀ m : Nat, m < N + 1 →
      (reachStep bundle)^[m] ({a} : Finset Item) ≠ (reachStep bundle)^[m + 1] {a} := by
    intro m hm heq
    apply hne2
    have h1 := iterate_stab_persists (reachStep bundle) ({a} : Finset Item) m heq (N - m)
    have h2 := iterate_stab_persists (reachStep bundle) ({a} : Finset Item) m heq
      (N + 1 - m)
    rw [show m + (N - m) = N by omega] at h1
    rw [show m + (N + 1 - m) = N + 1 by omega] at h2
    rw [← h1, ← h2]
  have hgrow := iterate_card_grow (reachStep bundle) (subset_reachStep bundle)
    ({a} : Finset Item) (N + 1) hall
  have hbound := Finset.card_le_card (iterate_reachStep_bound bundle a (N + 1))
  have hins : (insert a (((dirEdges bundle).map Prod.snd).toFinset)).card ≤
      (dirEdges bundle).length + 1 := by
    refine (Finset.card_insert_le _ _).trans ?_
    have := List.toFinset_card_le ((dirEdges bundle).map Prod.snd)
    rw [List.length_map] at this
    omega
  rw [Finset.card_singleton] at hgrow
  omega

/-- The saturated set contains every vertex connected to the source. -/
theorem reachClosure_complete (bundle : List (Item × Item)) (a b : Item)
    (h : ConnectedIn bundle a b) :
    b ∈ (reachStep bundle)^[(dirEdges bundle).length + 1] {a} := by
  induction h with
  | refl =>
    exact subset_iterate_reachStep bundle {a} _ (Finset.mem_singleton_self a)
  | tail hsteps hadj ih =>
    rw [← reachClosure_fixed bundle a]
    refine (mem_reachStep bundle _ _).mpr (Or.inr ⟨_, ih, ?_⟩)
    exact (mem_dirEdges bundle _ _).mpr hadj

/-- nx_has_path decides connectivity. -/
theorem nx_has_path_iff (bundle : List (Item × Item)) (a b : Item) :
    nx_has_path bundle a b = true ↔ ConnectedIn bundle a b := by
  rw [nx_has_path, decide_eq_true_eq]
  constructor
  · intro h
    refine iterate_reachStep_sound bundle a _ {a} ?_ b h
    intro v hv
    rw [Finset.mem_singleton] at hv
    rw [hv]
    exact Relation.ReflTransGen.refl
  · exact reachClosure_complete bundle a b


/-- A vertex outside the graph reaches nothing but itself. -/
theorem not_connected_of_not_node_left (bundle : List (Item × Item))
    (v1 v2 : Item) (hne : v1 ≠ v2) (hnode : v1 ∉ edgeNodes bundle) :
    ¬ ConnectedIn bundle v1 v2 := by
  intro h
  rcases Relation.ReflTransGen.cases_head h with heq | ⟨c, hadj, -⟩
  · exact hne heq
  · rcases hadj with he | he
    · exact hnode (List.mem_flatMap.mpr ⟨(v1, c), he, by simp [edgeNodes]⟩)
    · exact hnode (List.mem_flatMap.mpr ⟨(c, v1), he, by simp [edgeNodes]⟩)

/-- A vertex outside the graph is reached by nothing but itself. -/
theorem not_connected_of_not_node_right (bundle : List (Item × Item))
    (v1 v2 : Item) (hne : v1 ≠ v2) (hnode : v2 ∉ edgeNodes bundle) :
    ¬ ConnectedIn bundle v1 v2 := by
  intro h
  rcases Relation.ReflTransGen.cases_tail h with heq | ⟨c, -, hadj⟩
  · exact hne heq.symm
  · rcases hadj with he | he
    · exact hnode (List.mem_flatMap.mpr ⟨(c, v2), he, by simp [edgeNodes]⟩)
    · exact hnode (List.mem_flatMap.mpr ⟨(v2, c), he, by simp [edgeNodes]⟩)

/-- C6: for a candidate edge with two distinct endpoints, no_cycles returns
true exactly when the endpoints are not connected by a path in the undirected
graph formed by the bundle edges (stated without the acyclicity and freshness
hypotheses of the claim, which are not needed: this is stronger). -/
theorem no_cycles_iff_no_path (bundle : List (Item × Item)) (v1 v2 : Item)
    (hne : v1 ≠ v2) :
    no_cycles bundle (v1, v2) = true ↔ ¬ ConnectedIn bundle v1 v2 := by
  rw [no_cycles]
  simp only [Bool.or_eq_true, Bool.not_eq_true']
  constructor
  · rintro ((h | h) | h)
    · refine not_connected_of_not_node_left bundle v1 v2 hne ?_
      rw [has_node, decide_eq_false_iff_not] at h
      exact h
    · refine not_connected_of_not_node_right bundle v1 v2 hne ?_
      rw [has_node, decide_eq_false_iff_not] at h
      exact h
    · intro hc
      rw [(nx_has_path_iff bundle v1 v2).mpr hc] at h
      cases h
  · intro h
    right
    cases hcase : nx_has_path bundle v1 v2
    · rfl
    · exact absurd ((nx_has_path_iff bundle v1 v2).mp hcase) h

/-- C6 witness: the edge closing a triangle over a two-edge path. -/
theorem no_cycles_iff_no_path_witness :
    no_cycles [((1 : Nat), 2), (2, 3)] (1, 3) = true ↔
      ¬ ConnectedIn [((1 : Nat), 2), (2, 3)] 1 3 :=
  no_cycles_iff_no_path [((1 : Nat), 2), (2, 3)] 1 3 (by decide)

end NoCycles

section CappedRoundRobin

variable {Item : Type} [DecidableEq Item]

/-- A category-capacitated agent (agents.AdditiveAgentWithCategoryCapacities)
is its list of capacitated sub-agents, one per category. -/
abbrev CatAgent (Item : Type) [DecidableEq Item] := List (AdditiveAgentWithCapacity Item)

/-- The sub-agent of a category (Python sub_agents[category_index]; callers
stay in range, modelled with a zero-capacity default). -/
def subAgent (ag : CatAgent Item) (cat : Nat) : AdditiveAgentWithCapacity Item :=
  ag.getD cat ⟨0, []⟩

/-- Embedding of AdditiveAgentWithCategoryCapacities.is_saturated. -/
def catAgent_is_saturated (ag : CatAgent Item) (bundle : List Item) (cat : Nat) : Bool :=
  (subAgent ag cat).is_saturated bundle

/-- Embedding of
AdditiveAgentWithCategoryCapacities.best_category_item_in_bundle. -/
def catAgent_best_item (ag : CatAgent Item) (items : List Item) (cat : Nat) :
    Option Item :=
  (subAgent ag cat).toAdditive.best_item_in_bundle items

/-- Embedding of
AdditiveAgentWithCategoryCapacities.num_category_items_in_bundle. -/
def catAgent_num_items (ag : CatAgent Item) (items : List Item) (cat : Nat) : Nat :=
  (subAgent ag cat).toAdditive.num_items_in_bundle items

/-- The mutable state of capped_round_robin: the allocation built so far, the
remaining item pool and the turn order (the latter two are mutated in place
in Python and observable by the caller). -/
structure CRRState (Item : Type) where
  allocation : List (List Item)
  remaining : List Item
  order : List Nat

/-- Result of one traversal of the for loop (one round of the while loop). -/
inductive PassOut (Item : Type) where
  | next (st : CRRState Item)
  | done (st : CRRState Item)
  | err (msg : String) (st : CRRState Item)

/-- Result of the whole call.  fuelOut models non-termination of the Python
while loop (reachable only with an empty initial turn order). -/
inductive CRROut (Item : Type) where
  | ok (st : CRRState Item)
  | err (msg : String) (st : CRRState Item)
  | fuelOut

/-- Embedding of the for loop of capped_round_robin
(capped_round_robin.py lines 25-40) with the exact Python iterator
semantics: the loop keeps an index i into the (mutating) order list; removing
the current entry shifts later entries one position left, so the following
entry is skipped in this round.  A saturated agent is removed (RuntimeError
if the order empties); otherwise the agent takes its best-valued remaining
item (max of an empty pool raises ValueError) and the round ends the
category when no recognized items remain. -/
def crrPass (agents : List (CatAgent Item)) (cat : Nat) (alloc : List (List Item))
    (remaining : List Item) (order : List Nat) (i : Nat) : PassOut Item :=
  if hlt : i < order.length then
    let a := order.getD i 0
    let ag := agents.getD a []
    let bundle := alloc.getD a []
    if catAgent_is_saturated ag bundle cat then
      let order2 := order.erase a
      if order2.length = 0 then
        .err "All agents are saturated, but some items remain"
          ⟨alloc, remaining, order2⟩
      else crrPass agents cat alloc remaining order2 (i + 1)
    else
      match catAgent_best_item ag remaining cat with
      | none => .err "ValueError: max() arg is an empty sequence"
          ⟨alloc, remaining, order⟩
      | some item =>
        let alloc2 := alloc.set a (bundle ++ [item])
        let remaining2 := remaining.erase item
        if catAgent_num_items ag remaining2 cat = 0 then
          .done ⟨alloc2, remaining2, order⟩
        else crrPass agents cat alloc2 remaining2 order (i + 1)
  else .next ⟨alloc, remaining, order⟩
termination_by order.length - i
decreasing_by
  · have hmem : order.getD i 0 ∈ order := by
      rw [List.getD_eq_getElem _ _ hlt]
      exact List.getElem_mem hlt
    rw [List.length_erase_of_mem hmem]
    omega
  · omega

/-- Embedding of the while loop of capped_round_robin: repeat rounds of the
for loop until a return or an exception; the fuel only expires if the loop
would not terminate. -/
def crrLoop (agents : List (CatAgent Item)) (cat : Nat) :
    Nat → CRRState Item → CRROut Item
  | 0, _ => .fuelOut
  | fuel + 1, st =>
    match crrPass agents cat st.allocation st.remaining st.order 0 with
    | .next st2 => crrLoop agents cat fuel st2
    | .done st2 => .ok st2
    | .err m st2 => .err m st2

/-- Embedding of capped_round_robin (capped_round_robin.py lines 22-40):
start from empty bundles with enough fuel for every terminating run (each
round with a nonempty order removes an item or an agent). -/
def capped_round_robin (remaining_items : List Item)
    (agents : List (CatAgent Item)) (category_index : Nat)
    (agent_order : List Nat) : CRROut Item :=
  crrLoop agents category_index (remaining_items.length + agent_order.length + 1)
    ⟨agents.map (fun _ => []), remaining_items, agent_order⟩

/-- Embedding of the category loop of category_capped_round_robin: run the
categories in the order given by the (insertion-ordered) dict, merging each
returned per-category allocation into the accumulated one. -/
def ccrr_go (agents : List (CatAgent Item)) :
    List (Nat × List Nat) → List (List Item) → List Item → CRROut Item
  | [], alloc, remaining => .ok ⟨alloc, remaining, []⟩
  | (c, ord) :: rest, alloc, remaining =>
    match capped_round_robin remaining agents c ord with
    | .ok st =>
      ccrr_go agents rest (List.zipWith (· ++ ·) alloc st.allocation) st.remaining
    | .err m st => .err m st
    | .fuelOut => .fuelOut

/-- Embedding of category_capped_round_robin
(capped_round_robin.py lines 43-50). -/
def category_capped_round_robin (all_items : List Item)
    (agents : List (CatAgent Item)) (catOrders : List (Nat × List Nat)) :
    CRROut Item :=
  ccrr_go agents catOrders (agents.map (fun _ => [])) all_items

/-- The fold underlying best_item_in_bundle picks a member with maximal
value. -/
theorem best_fold_spec (ag : AdditiveAgent Item) :
    ∀ (xs : List Item) (x : Item),
      (xs.foldl (fun b y => if ag.item_value b < ag.item_value y then y else b) x)
        ∈ x :: xs ∧
      (∀ z ∈ x :: xs, ag.item_value z ≤
        ag.item_value
          (xs.foldl (fun b y => if ag.item_value b < ag.item_value y then y else b) x)) := by
  intro xs
  induction xs with
  | nil =>
    intro x
    refine ⟨by simp, ?_⟩
    intro z hz
    rw [List.mem_singleton] at hz
    rw [hz, List.foldl_nil]
  | cons y ys ih =>
    intro x
    rw [List.foldl_cons]
    by_cases hc : ag.item_value x < ag.item_value y
    · rw [if_pos hc]
      rcases ih y with ⟨hmem, hmax⟩
      constructor
      · rcases List.mem_cons.mp hmem with h | h
        · exact List.mem_cons.mpr (Or.inr (List.mem_cons.mpr (Or.inl h)))
        · exact List.mem_cons.mpr (Or.inr (List.mem_cons.mpr (Or.inr h)))
      · intro z hz
        rcases List.mem_cons.mp hz with rfl | hz
        · exact (le_of_lt hc).trans (hmax y (by simp))
        · exact hmax z hz
    · rw [if_neg hc]
      rcases ih x with ⟨hmem, hmax⟩
      constructor
      · rcases List.mem_cons.mp hmem with h | h
        · exact List.mem_cons.mpr (Or.inl h)
        · exact List.mem_cons.mpr (Or.inr (List.mem_cons.mpr (Or.inr h)))
      · intro z hz
        rcases List.mem_cons.mp hz with rfl | hz
        · exact hmax z (by simp)
        · rcases List.mem_cons.mp hz with rfl | hz
          · exact (le_of_not_lt hc).trans (hmax x (by simp))
          · exact hmax z (by simp [hz])

/-- best_item_in_bundle on a non-empty bundle returns a member of maximal
value. -/
theorem best_item_spec (ag : AdditiveAgent Item) (l : List Item) (hne : l ≠ []) :
    ∃ y, ag.best_item_in_bundle l = some y ∧ y ∈ l ∧
      ∀ z ∈ l, ag.item_value z ≤ ag.item_value y := by
  cases l with
  | nil => exact absurd rfl hne
  | cons x xs =>
    rcases best_fold_spec ag xs x with ⟨hmem, hmax⟩
    exact ⟨_, rfl, hmem, hmax⟩

/-- best_item_in_bundle fails exactly on the empty bundle. -/
theorem best_item_none (ag : AdditiveAgent Item) :
    ag.best_item_in_bundle [] = none := rfl

/-- When the lookup support of the table is described by a boolean category
predicate, num_items_in_bundle counts the category items. -/
theorem num_items_eq_filter (vals : List (Item × Int)) (inCat : Item → Bool)
    (hmatch : ∀ x : Item, (vals.lookup x).isSome = inCat x) (l : List Item) :
    AdditiveAgent.num_items_in_bundle ⟨vals⟩ l = (l.filter inCat).length := by
  rw [AdditiveAgent.num_items_in_bundle]
  congr 1
  exact List.filter_congr (fun x _ => hmatch x)

/-- Removing one category item lowers the category count by one. -/
theorem length_filter_erase_of_mem (p : Item → Bool) (l : List Item) (x : Item)
    (hx : x ∈ l) (hp : p x = true) :
    ((l.erase x).filter p).length + 1 = (l.filter p).length := by
  have hperm : l.Perm (x :: l.erase x) := List.perm_cons_erase hx
  have := (hperm.filter p).length_eq
  rw [List.filter_cons, if_pos hp] at this
  simpa using this.symm

/-- Removing a non-category item keeps the category count. -/
theorem length_filter_erase_of_neg (p : Item → Bool) (l : List Item) (x : Item)
    (hx : x ∈ l) (hp : p x = false) :
    ((l.erase x).filter p).length = (l.filter p).length := by
  have hperm : l.Perm (x :: l.erase x) := List.perm_cons_erase hx
  have := (hperm.filter p).length_eq
  rw [List.filter_cons, if_neg (by simp [hp])] at this
  exact this.symm

/-- The default (out of range) category-capacitated agent is always
saturated: its capacity is zero. -/
theorem empty_agent_saturated (bundle : List Item) (cat : Nat) :
    catAgent_is_saturated ([] : CatAgent Item) bundle cat = true := by
  rw [catAgent_is_saturated, subAgent]
  simp [AdditiveAgentWithCapacity.is_saturated]

/-- An unsaturated turn holder is a real agent of the list. -/
theorem taker_in_range (agents : List (CatAgent Item)) (cat : Nat) (a : Nat)
    (bundle : List Item)
    (hsat : ¬ catAgent_is_saturated (agents.getD a []) bundle cat = true) :
    a < agents.length := by
  by_contra hge
  rw [List.getD_eq_default _ _ (by omega)] at hsat
  exact hsat (empty_agent_saturated bundle cat)

/-- Round invariant of capped_round_robin used for the termination claim:
starting a round with recognized items left in the pool, the round either
ends the category with no recognized items remaining, raises exactly the
all-agents-saturated error while recognized items remain, or hands a state
with recognized items, a nonempty order and a strictly smaller
items-plus-agents measure to the next round. -/
theorem crrPass_round_spec (agents : List (CatAgent Item)) (cat : Nat)
    (inCat : Item → Bool)
    (hmatch : ∀ ag ∈ agents, ∀ x : Item,
      ((subAgent ag cat).values.lookup x).isSome = inCat x) :
    ∀ (alloc : List (List Item)) (remaining : List Item) (order : List Nat)
      (i : Nat),
      0 < (remaining.filter inCat).length →
      order ≠ [] →
      (∀ st, crrPass agents cat alloc remaining order i = .done st →
        (st.remaining.filter inCat).length = 0) ∧
      (∀ m st, crrPass agents cat alloc remaining order i = .err m st →
        m = "All agents are saturated, but some items remain" ∧
        0 < (st.remaining.filter inCat).length) ∧
      (∀ st, crrPass agents cat alloc remaining order i = .next st →
        0 < (st.remaining.filter inCat).length ∧ st.order ≠ [] ∧
        st.remaining.length + st.order.length ≤ remaining.length + order.length ∧
        (i < order.length →
          st.remaining.length + st.order.length <
            remaining.length + order.length)) := by
  intro alloc remaining order i
  induction alloc, remaining, order, i using crrPass.induct agents cat with
  | case1 alloc remaining order i hlt a ag bundle hsat order2 hord2 =>
    intro hcount horder
    rw [crrPass, dif_pos hlt]
    dsimp only
    rw [if_pos hsat, if_pos hord2]
    refine ⟨?_, ?_, ?_⟩
    · intro st h; exact PassOut.noConfusion h
    · intro m st h
      injection h with h1 h2
      exact ⟨h1.symm, by rw [← h2]; exact hcount⟩
    · intro st h; exact PassOut.noConfusion h
  | case2 alloc remaining order i hlt a ag bundle hsat order2 hord2 ih =>
    intro hcount horder
    have horder2 : order2 ≠ [] := fun e => hord2 (by rw [e]; rfl)
    rcases ih hcount horder2 with ⟨ihdone, iherr, ihnext⟩
    have hlen2 : order2.length = order.length - 1 := by
      have hmem : order.getD i 0 ∈ order := by
        rw [List.getD_eq_getElem _ _ hlt]
        exact List.getElem_mem hlt
      exact List.length_erase_of_mem hmem
    rw [crrPass, dif_pos hlt]
    dsimp only
    rw [if_pos hsat, if_neg hord2]
    refine ⟨ihdone, iherr, ?_⟩
    intro st h
    rcases ihnext st h with ⟨h1, h2, h3, -⟩
    refine ⟨h1, h2, by omega, fun _ => by omega⟩
  | case3 alloc remaining order i hlt a ag bundle hsat hbest =>
    intro hcount horder
    exfalso
    have hne : remaining ≠ [] := by
      intro e
      rw [e] at hcount
      simp at hcount
    rcases best_item_spec (subAgent ag cat).toAdditive remaining hne with
      ⟨y, hy, -, -⟩
    rw [catAgent_best_item] at hbest
    rw [hbest] at hy
    cases hy
  | case4 alloc remaining order i hlt a ag bundle hsat item hbest remaining2 hnum =>
    intro hcount horder
    rw [crrPass, dif_pos hlt]
    dsimp only
    rw [if_neg hsat, catAgent_best_item] at *
    rw [hbest]
    dsimp only
    rw [if_pos hnum]
    have harange : a < agents.length := taker_in_range agents cat a bundle hsat
    have hagmem : agents.getD a [] ∈ agents := by
      rw [List.getD_eq_getElem _ _ harange]
      exact List.getElem_mem harange
    have hcount2 : (remaining2.filter inCat).length = 0 := by
      rw [← num_items_eq_filter ((subAgent ag cat).values) inCat
        (hmatch ag hagmem) remaining2]
      exact hnum
    refine ⟨?_, ?_, ?_⟩
    · intro st h
      injection h with h1
      rw [← h1]
      exact hcount2
    · intro m st h; exact PassOut.noConfusion h
    · intro st h; exact PassOut.noConfusion h
  | case5 alloc remaining order i hlt a ag bundle hsat item hbest alloc2 remaining2 hnum ih =>
    intro hcount horder
    have harange : a < agents.length := taker_in_range agents cat a bundle hsat
    have hagmem : agents.getD a [] ∈ agents := by
      rw [List.getD_eq_getElem _ _ harange]
      exact List.getElem_mem harange
    have hnum_eq : catAgent_num_items ag remaining2 cat =
        (remaining2.filter inCat).length :=
      num_items_eq_filter ((subAgent ag cat).values) inCat (hmatch ag hagmem)
        remaining2
    have hcount2 : 0 < (remaining2.filter inCat).length :=
      Nat.pos_of_ne_zero (fun e => hnum (hnum_eq.trans e))
    have hne : remaining ≠ [] := by
      intro e
      rw [e] at hcount
      simp at hcount
    have hitemmem : item ∈ remaining := by
      rcases best_item_spec (subAgent ag cat).toAdditive remaining hne with
        ⟨y, hy, hymem, -⟩
      rw [catAgent_best_item, hy] at hbest
      injection hbest with hyi
      rw [← hyi]
      exact hymem
    have hlen2 : remaining2.length = remaining.length - 1 :=
      List.length_erase_of_mem hitemmem
    have hrempos : 0 < remaining.length := List.length_pos.mpr hne
    rcases ih hcount2 horder with ⟨ihdone, iherr, ihnext⟩
    rw [crrPass, dif_pos hlt]
    dsimp only
    rw [if_neg hsat, hbest]
    dsimp only
    rw [if_neg hnum]
    refine ⟨ihdone, iherr, ?_⟩
    intro st h
    rcases ihnext st h with ⟨h1, h2, h3, -⟩
    refine ⟨h1, h2, by omega, fun _ => by omega⟩
  | case6 alloc remaining order i hge =>
    intro hcount horder
    rw [crrPass, dif_neg hge]
    refine ⟨?_, ?_, ?_⟩
    · intro st h; exact PassOut.noConfusion h
    · intro m st h; exact PassOut.noConfusion h
    · intro st h
      injection h with h1
      rw [← h1]
      exact ⟨hcount, horder, le_refl _, fun hik => absurd hik hge⟩

/-- The while loop of capped_round_robin, given enough fuel, either ends the
category with no recognized items left, or raises exactly the
all-agents-saturated error with recognized items left. -/
theorem crrLoop_spec (agents : List (CatAgent Item)) (cat : Nat)
    (inCat : Item → Bool)
    (hmatch : ∀ ag ∈ agents, ∀ x : Item,
      ((subAgent ag cat).values.lookup x).isSome = inCat x) :
    ∀ (fuel : Nat) (st : CRRState Item),
      st.order ≠ [] →
      0 < (st.remaining.filter inCat).length →
      st.remaining.length + st.order.length < fuel →
      (∀ st2, crrLoop agents cat fuel st = .ok st2 →
        (st2.remaining.filter inCat).length = 0) ∧
      (∀ m st2, crrLoop agents cat fuel st = .err m st2 →
        m = "All agents are saturated, but some items remain" ∧
        0 < (st2.remaining.filter inCat).length) ∧
      crrLoop agents cat fuel st ≠ .fuelOut := by
  intro fuel
  induction fuel with
  | zero => intro st _ _ hm; omega
  | succ fuel ih =>
    intro st horder hcount hfuel
    rcases crrPass_round_spec agents cat inCat hmatch st.allocation st.remaining
      st.order 0 hcount horder with ⟨pd, pe, pn⟩
    rw [crrLoop]
    cases hp : crrPass agents cat st.allocation st.remaining st.order 0 with
    | next st2 =>
      rcases pn st2 hp with ⟨h1, h2, -, h4⟩
      have hstrict := h4 (by rw [List.length_pos]; exact horder)
      rcases ih st2 h2 h1 (by omega) with ⟨l1, l2, l3⟩
      exact ⟨l1, l2, l3⟩
    | done st2 =>
      refine ⟨?_, ?_, ?_⟩
      · intro st3 h
        injection h with h1
        rw [← h1]
        exact pd st2 hp
      · intro m st3 h; exact CRROut.noConfusion h
      · intro h; exact CRROut.noConfusion h
    | err m st2 =>
      refine ⟨?_, ?_, ?_⟩
      · intro st3 h; exact CRROut.noConfusion h
      · intro m2 st3 h
        injection h with h1 h2
        rw [← h1, ← h2]
        exact pe m st2 hp
      · intro h; exact CRROut.noConfusion h

/-- C7 (amended): with a nonempty turn order of valid agent indices, a valid
category index, and at least one item of the category in the pool,
capped_round_robin terminates; it returns normally exactly when no
unassigned items of the category remain, and the only error it can raise is
the hard all-agents-saturated RuntimeError, raised while unassigned items of
the category remain. -/
theorem capped_round_robin_dichotomy
    (agents : List (CatAgent Item)) (cat : Nat) (remaining : List Item)
    (order : List Nat) (inCat : Item → Bool)
    (hmatch : ∀ ag ∈ agents, ∀ x : Item,
      ((subAgent ag cat).values.lookup x).isSome = inCat x)
    (horder : order ≠ [])
    (hvalid : ∀ a ∈ order, a < agents.length)
    (hcat : ∀ ag ∈ agents, cat < ag.length)
    (hitems : 0 < (remaining.filter inCat).length) :
    (∀ st, capped_round_robin remaining agents cat order = .ok st →
      (st.remaining.filter inCat).length = 0) ∧
    (∀ m st, capped_round_robin remaining agents cat order = .err m st →
      m = "All agents are saturated, but some items remain" ∧
      0 < (st.remaining.filter inCat).length) ∧
    capped_round_robin remaining agents cat order ≠ .fuelOut := by
  rw [capped_round_robin]
  exact crrLoop_spec agents cat inCat hmatch
    (remaining.length + order.length + 1)
    ⟨agents.map (fun _ => []), remaining, order⟩ horder hitems
    (by show remaining.length + order.length < remaining.length + order.length + 1
        omega)

/-- C7 witness: one agent with capacity one for the single category, holding
one recognized item. -/
theorem capped_round_robin_dichotomy_witness :
    (∀ st, capped_round_robin [10] [[(⟨1, [(10, 5)]⟩ : AdditiveAgentWithCapacity Nat)]] 0 [0] = .ok st →
      ((st.remaining.filter (fun x => x == 10)).length = 0)) ∧
    (∀ m st, capped_round_robin [10] [[(⟨1, [(10, 5)]⟩ : AdditiveAgentWithCapacity Nat)]] 0 [0] = .err m st →
      m = "All agents are saturated, but some items remain" ∧
      0 < (st.remaining.filter (fun x => x == 10)).length) ∧
    capped_round_robin [10] [[(⟨1, [(10, 5)]⟩ : AdditiveAgentWithCapacity Nat)]] 0 [0] ≠ .fuelOut :=
  capped_round_robin_dichotomy
    [[(⟨1, [(10, 5)]⟩ : AdditiveAgentWithCapacity Nat)]] 0 [10] [0]
    (fun x => x == 10)
    (by intro ag hag x
        rcases List.mem_singleton.mp hag with rfl
        cases hx : x == 10 <;> simp [subAgent, List.lookup, hx])
    (by decide) (by decide) (by decide) (by decide)

/-- C7 counterexample: on an empty pool with an unsaturated agent the call
does not terminate the category normally (as the claim requires when no items
of the category remain); it raises a ValueError from max() on the empty pool,
an error the claim says cannot occur. -/
theorem capped_round_robin_empty_pool_error :
    capped_round_robin ([] : List Nat)
      [[(⟨1, [(10, 5)]⟩ : AdditiveAgentWithCapacity Nat)]] 0 [0] =
      .err "ValueError: max() arg is an empty sequence" ⟨[[]], [], [0]⟩ := by
  have hpass : crrPass [[(⟨1, [(10, 5)]⟩ : AdditiveAgentWithCapacity Nat)]]
      0 [[]] [] [0] 0 =
      .err "ValueError: max() arg is an empty sequence" ⟨[[]], [], [0]⟩ := by
    rw [crrPass, dif_pos (by decide : 0 < List.length [0])]
    dsimp only
    rw [if_neg (by decide)]
    rfl
  rw [capped_round_robin]
  show crrLoop [[(⟨1, [(10, 5)]⟩ : AdditiveAgentWithCapacity Nat)]] 0
    (([] : List Nat).length + [0].length + 1) ⟨[[]], [], [0]⟩ = _
  rw [crrLoop]
  dsimp only
  rw [hpass]

/-- Setting an unrelated position does not change getD. -/
theorem getD_set_ne {α : Type} (l : List α) (i j : Nat) (v d : α) (hij : i ≠ j) :
    (l.set i v).getD j d = l.getD j d := by
  rw [List.getD_eq_getElem?_getD, List.getD_eq_getElem?_getD, List.getElem?_set,
    if_neg hij]

/-- Setting a position in range makes getD return the new value. -/
theorem getD_set_self {α : Type} (l : List α) (i : Nat) (v d : α)
    (hi : i < l.length) :
    (l.set i v).getD i d = v := by
  rw [List.getD_eq_getElem?_getD, List.getElem?_set, if_pos rfl, if_pos hi]
  rfl

/-- Bundles of the all-empty initial allocation are empty. -/
theorem getD_map_nil {α β : Type} (l : List α) (a : Nat) :
    (l.map (fun _ => ([] : List β))).getD a [] = [] := by
  rcases Nat.lt_or_ge a l.length with h | h
  · rw [List.getD_eq_getElem _ _ (by rw [List.length_map]; exact h)]
    simp
  · rw [List.getD_eq_default _ _ (by rw [List.length_map]; exact h)]

/-- The all-empty initial allocation flattens to nothing. -/
theorem flatten_map_nil {α β : Type} (l : List α) :
    (l.map (fun _ => ([] : List β))).flatten = [] := by
  induction l with
  | nil => rfl
  | cons a t ih => simp [ih]

/-- Appending one item to a bundle adds one to the category count exactly
when the item is in the category. -/
theorem length_filter_append_singleton (p : Item → Bool) (b : List Item) (x : Item) :
    ((b ++ [x]).filter p).length =
      (b.filter p).length + (if p x then 1 else 0) := by
  rw [List.filter_append]
  cases hx : p x <;> simp [List.filter_cons, hx]

/-- If two functions agree except at one point of a finite set, where one
exceeds the other by one, their sums differ by one. -/
theorem sum_update_succ {s : Finset Nat} {f g : Nat → Nat} {a : Nat} (ha : a ∈ s)
    (hagree : ∀ b ∈ s, b ≠ a → g b = f b) (hstep : g a = f a + 1) :
    ∑ b ∈ s, g b = (∑ b ∈ s, f b) + 1 := by
  have h1 : ∑ b ∈ s.erase a, g b = ∑ b ∈ s.erase a, f b :=
    Finset.sum_congr rfl (fun b hb => hagree b (Finset.mem_of_mem_erase hb)
      (Finset.ne_of_mem_erase hb))
  rw [← Finset.add_sum_erase s g ha, ← Finset.add_sum_erase s f ha, h1, hstep]
  omega

/-- Splitting a filtered length along a multiset identity. -/
theorem length_filter_of_multiset_eq (p : Item → Bool) (l1 l2 l3 : List Item)
    (h : (↑l1 + ↑l2 : Multiset Item) = ↑l3) :
    (l1.filter p).length + (l2.filter p).length = (l3.filter p).length := by
  have h2 := congrArg (fun m => (Multiset.filter (fun x => p x = true) m).card) h
  simpa [Multiset.filter_add, Multiset.filter_coe] using h2

/-- The running invariant of one capped_round_robin category call: the
allocation has one bundle per agent; category counts never exceed the
capacities; agents dropped from the turn order are exactly at capacity; the
turn order has no duplicates; all placed items belong to the category; the
placed items and the pool together are the original pool; and the category
items of pool and bundles together count T. -/
def CRRInv (agents : List (CatAgent Item)) (cat : Nat) (inCat : Item → Bool)
    (T : Nat) (M : Multiset Item) (alloc : List (List Item))
    (remaining : List Item) (order : List Nat) : Prop :=
  alloc.length = agents.length ∧
  (∀ a : Nat, a < agents.length →
    ((alloc.getD a []).filter inCat).length ≤
      (subAgent (agents.getD a []) cat).capacity) ∧
  (∀ a : Nat, a < agents.length → a ∉ order →
    ((alloc.getD a []).filter inCat).length =
      (subAgent (agents.getD a []) cat).capacity) ∧
  order.Nodup ∧
  (∀ b ∈ alloc, ∀ x ∈ b, inCat x = true) ∧
  ((alloc.flatten : Multiset Item) + ↑remaining = M) ∧
  ((remaining.filter inCat).length +
    ∑ a ∈ Finset.range agents.length,
      ((alloc.getD a []).filter inCat).length = T)

/-- One round of capped_round_robin preserves the running invariant; with
capacities summing to the category total it cannot raise, and it either ends
the category exactly when the recognized items run out or passes a strictly
smaller state to the next round. -/
theorem crrPass_inv_spec (agents : List (CatAgent Item)) (cat : Nat)
    (inCat : Item → Bool)
    (hmatch : ∀ ag ∈ agents, ∀ x : Item,
      ((subAgent ag cat).values.lookup x).isSome = inCat x)
    (hpos : ∀ ag ∈ agents, ∀ (x : Item) (v : Int),
      (subAgent ag cat).values.lookup x = some v → 0 < v)
    (T : Nat) (M : Multiset Item)
    (hT : T = ∑ a ∈ Finset.range agents.length,
      (subAgent (agents.getD a []) cat).capacity) :
    ∀ (alloc : List (List Item)) (remaining : List Item) (order : List Nat)
      (i : Nat),
      CRRInv agents cat inCat T M alloc remaining order →
      0 < (remaining.filter inCat).length →
      (∀ st, crrPass agents cat alloc remaining order i = .done st →
        CRRInv agents cat inCat T M st.allocation st.remaining st.order ∧
        (st.remaining.filter inCat).length = 0) ∧
      (∀ m st, crrPass agents cat alloc remaining order i = .err m st → False) ∧
      (∀ st, crrPass agents cat alloc remaining order i = .next st →
        CRRInv agents cat inCat T M st.allocation st.remaining st.order ∧
        0 < (st.remaining.filter inCat).length ∧
        st.remaining.length + st.order.length ≤ remaining.length + order.length ∧
        (i < order.length →
          st.remaining.length + st.order.length <
            remaining.length + order.length)) := by
  intro alloc remaining order i
  induction alloc, remaining, order, i using crrPass.induct agents cat with
  | case1 alloc remaining order i hlt a ag bundle hsat order2 hord2 =>
    intro hinv hcount
    exfalso
    rcases hinv with ⟨hi1, hi2, hi3, hi4, hi5, hi6, hi7⟩
    have hamem : a ∈ order := by
      show order.getD i 0 ∈ order
      rw [List.getD_eq_getElem _ _ hlt]
      exact List.getElem_mem hlt
    have hall : ∀ b : Nat, b < agents.length →
        ((alloc.getD b []).filter inCat).length =
          (subAgent (agents.getD b []) cat).capacity := by
      intro b hb
      by_cases hba : b = a
      · have harange1 : a < agents.length := hba ▸ hb
        have hagmem1 : agents.getD a [] ∈ agents := by
          rw [List.getD_eq_getElem _ _ harange1]
          exact List.getElem_mem harange1
        have heq1 : AdditiveAgent.num_items_in_bundle
            (subAgent (agents.getD a []) cat).toAdditive (alloc.getD a []) =
            ((alloc.getD a []).filter inCat).length :=
          num_items_eq_filter ((subAgent (agents.getD a []) cat).values) inCat
            (hmatch _ hagmem1) (alloc.getD a [])
        have hsat2 : (subAgent (agents.getD a []) cat).capacity ≤
            ((alloc.getD a []).filter inCat).length := by
          have h0 := hsat
          rw [catAgent_is_saturated, AdditiveAgentWithCapacity.is_saturated,
            decide_eq_true_eq] at h0
          rw [← heq1]
          exact h0
        rw [hba]
        exact le_antisymm (hi2 a harange1) hsat2
      · refine hi3 b hb ?_
        intro hmem
        have h0 : order.erase a = [] := List.length_eq_zero.mp hord2
        have h1 : b ∈ order.erase a := (List.mem_erase_of_ne hba).mpr hmem
        rw [h0] at h1
        cases h1
    have hsum : ∑ b ∈ Finset.range agents.length,
        ((alloc.getD b []).filter inCat).length = T := by
      rw [hT]
      exact Finset.sum_congr rfl (fun b hb => hall b (Finset.mem_range.mp hb))
    omega
  | case2 alloc remaining order i hlt a ag bundle hsat order2 hord2 ih =>
    intro hinv hcount
    rcases hinv with ⟨hi1, hi2, hi3, hi4, hi5, hi6, hi7⟩
    have hamem : a ∈ order := by
      show order.getD i 0 ∈ order
      rw [List.getD_eq_getElem _ _ hlt]
      exact List.getElem_mem hlt
    have hinv2 : CRRInv agents cat inCat T M alloc remaining order2 := by
      refine ⟨hi1, hi2, ?_, hi4.erase a, hi5, hi6, hi7⟩
      intro b hb hbord
      by_cases hba : b = a
      · have harange1 : a < agents.length := hba ▸ hb
        have hagmem1 : agents.getD a [] ∈ agents := by
          rw [List.getD_eq_getElem _ _ harange1]
          exact List.getElem_mem harange1
        have heq1 : AdditiveAgent.num_items_in_bundle
            (subAgent (agents.getD a []) cat).toAdditive (alloc.getD a []) =
            ((alloc.getD a []).filter inCat).length :=
          num_items_eq_filter ((subAgent (agents.getD a []) cat).values) inCat
            (hmatch _ hagmem1) (alloc.getD a [])
        have hsat2 : (subAgent (agents.getD a []) cat).capacity ≤
            ((alloc.getD a []).filter inCat).length := by
          have h0 := hsat
          rw [catAgent_is_saturated, AdditiveAgentWithCapacity.is_saturated,
            decide_eq_true_eq] at h0
          rw [← heq1]
          exact h0
        rw [hba]
        exact le_antisymm (hi2 a harange1) hsat2
      · refine hi3 b hb ?_
        intro hmem
        exact hbord ((List.mem_erase_of_ne hba).mpr hmem)
    have hlen2 : order2.length = order.length - 1 :=
      List.length_erase_of_mem hamem
    rcases ih hinv2 hcount with ⟨ihdone, iherr, ihnext⟩
    rw [crrPass, dif_pos hlt]
    dsimp only
    rw [if_pos hsat, if_neg hord2]
    refine ⟨ihdone, iherr, ?_⟩
    intro st h
    rcases ihnext st h with ⟨h1, h2, h3, -⟩
    exact ⟨h1, h2, by omega, fun _ => by omega⟩
  | case3 alloc remaining order i hlt a ag bundle hsat hbest =>
    intro hinv hcount
    exfalso
    have hne : remaining ≠ [] := by
      intro e
      rw [e] at hcount
      simp at hcount
    rcases best_item_spec (subAgent ag cat).toAdditive remaining hne with
      ⟨y, hy, -, -⟩
    rw [catAgent_best_item] at hbest
    rw [hbest] at hy
    cases hy
  | case4 alloc remaining order i hlt a ag bundle hsat item hbest remaining2 hnum =>
    intro hinv hcount
    rcases hinv with ⟨hi1, hi2, hi3, hi4, hi5, hi6, hi7⟩
    have harange : a < agents.length := taker_in_range agents cat a bundle hsat
    have hagmem : agents.getD a [] ∈ agents := by
      rw [List.getD_eq_getElem _ _ harange]
      exact List.getElem_mem harange
    have hamem : a ∈ order := by
      show order.getD i 0 ∈ order
      rw [List.getD_eq_getElem _ _ hlt]
      exact List.getElem_mem hlt
    have halen : a < alloc.length := by rw [hi1]; exact harange
    have heq0 : AdditiveAgent.num_items_in_bundle
        (subAgent (agents.getD a []) cat).toAdditive (alloc.getD a []) =
        ((alloc.getD a []).filter inCat).length :=
      num_items_eq_filter ((subAgent (agents.getD a []) cat).values) inCat
        (hmatch _ hagmem) (alloc.getD a [])
    have hbcount_lt : (bundle.filter inCat).length <
        (subAgent (agents.getD a []) cat).capacity := by
      have hns : ¬ (subAgent (agents.getD a []) cat).capacity ≤
          AdditiveAgent.num_items_in_bundle
            (subAgent (agents.getD a []) cat).toAdditive (alloc.getD a []) := by
        intro hle
        apply hsat
        rw [catAgent_is_saturated, AdditiveAgentWithCapacity.is_saturated,
          decide_eq_true_eq]
        exact hle
      rw [heq0] at hns
      show ((alloc.getD a []).filter inCat).length < _
      omega
    obtain ⟨y, hymem, hycat⟩ : ∃ y ∈ remaining, inCat y = true := by
      have hne : remaining.filter inCat ≠ [] := by
        intro e
        rw [e] at hcount
        simp at hcount
      rcases List.exists_mem_of_ne_nil _ hne with ⟨y, hy⟩
      exact ⟨y, (List.mem_filter.mp hy).1, (List.mem_filter.mp hy).2⟩
    have hitem : item ∈ remaining ∧ inCat item = true := by
      have hne2 : remaining ≠ [] := by
        intro e
        rw [e] at hymem
        cases hymem
      rcases best_item_spec (subAgent ag cat).toAdditive remaining hne2 with
        ⟨z, hz, hzmem, hzmax⟩
      have hbest2 : catAgent_best_item ag remaining cat = some item := hbest
      rw [catAgent_best_item, hz] at hbest2
      injection hbest2 with hzi
      refine ⟨hzi ▸ hzmem, ?_⟩
      rw [← hzi]
      have hysome : ((subAgent (agents.getD a []) cat).values.lookup y).isSome
          = true := by
        rw [hmatch _ hagmem y]
        exact hycat
      rcases Option.isSome_iff_exists.mp hysome with ⟨v, hv⟩
      have hvpos : 0 < v := hpos _ hagmem y v hv
      have hyval : (subAgent ag cat).toAdditive.item_value y = v := by
        rw [AdditiveAgent.item_value]
        show (match (subAgent (agents.getD a []) cat).values.lookup y with
          | some w => w
          | none => 0) = v
        rw [hv]
      have hzval : 0 < (subAgent ag cat).toAdditive.item_value z := by
        have := hzmax y hymem
        omega
      rw [← hmatch _ hagmem z]
      cases hlz : (subAgent (agents.getD a []) cat).values.lookup z with
      | none =>
        exfalso
        have hz0 : (subAgent ag cat).toAdditive.item_value z = 0 := by
          rw [AdditiveAgent.item_value]
          show (match (subAgent (agents.getD a []) cat).values.lookup z with
            | some w => w
            | none => 0 : Int) = 0
          rw [hlz]
        omega
      | some w => rfl
    have hcount2 : ((remaining.erase item).filter inCat).length + 1 =
        (remaining.filter inCat).length :=
      length_filter_erase_of_mem inCat remaining item hitem.1 hitem.2
    have hinvnew : CRRInv agents cat inCat T M
        (alloc.set a (bundle ++ [item])) (remaining.erase item) order := by
      refine ⟨by rw [List.length_set]; exact hi1, ?_, ?_, hi4, ?_, ?_, ?_⟩
      · intro b hb
        by_cases hba : b = a
        · rw [hba, getD_set_self alloc a (bundle ++ [item]) [] halen,
            length_filter_append_singleton inCat bundle item, hitem.2]
          show (bundle.filter inCat).length + 1 ≤ _
          omega
        · rw [getD_set_ne alloc a b (bundle ++ [item]) [] (fun e => hba e.symm)]
          exact hi2 b hb
      · intro b hb hbord
        have hba : b ≠ a := fun e => hbord (by rw [e]; exact hamem)
        rw [getD_set_ne alloc a b (bundle ++ [item]) [] (fun e => hba e.symm)]
        exact hi3 b hb hbord
      · intro b hb x hx
        rcases List.mem_or_eq_of_mem_set hb with hb2 | rfl
        · exact hi5 b hb2 x hx
        · rcases List.mem_append.mp hx with hx2 | hx2
          · refine hi5 (alloc.getD a []) ?_ x hx2
            rw [List.getD_eq_getElem _ _ halen]
            exact List.getElem_mem halen
          · rcases List.mem_singleton.mp hx2 with rfl
            exact hitem.2
      · have hflat : ((alloc.set a (bundle ++ [item])).flatten : Multiset Item) =
            ↑(item :: alloc.flatten) :=
          Multiset.coe_eq_coe.mpr (flatten_set_append_perm alloc a halen item)
        have hrem : (↑remaining : Multiset Item) =
            ↑(item :: remaining.erase item) :=
          Multiset.coe_eq_coe.mpr (List.perm_cons_erase hitem.1)
        rw [hflat, ← Multiset.cons_coe, Multiset.cons_add, ← Multiset.add_cons,
          Multiset.cons_coe, ← hrem]
        exact hi6
      · have hsum2 : ∑ b ∈ Finset.range agents.length,
            (((alloc.set a (bundle ++ [item])).getD b []).filter inCat).length =
            (∑ b ∈ Finset.range agents.length,
              ((alloc.getD b []).filter inCat).length) + 1 := by
          refine sum_update_succ (Finset.mem_range.mpr harange) ?_ ?_
          · intro b hb2 hba
            rw [getD_set_ne alloc a b (bundle ++ [item]) [] (fun e => hba e.symm)]
          · rw [getD_set_self alloc a (bundle ++ [item]) [] halen,
              length_filter_append_singleton inCat bundle item, hitem.2]
            rfl
        rw [hsum2]
        omega
    have hccount2 : ((remaining.erase item).filter inCat).length = 0 := by
      rw [← num_items_eq_filter ((subAgent ag cat).values) inCat
        (hmatch ag hagmem) (remaining.erase item)]
      exact hnum
    rw [crrPass, dif_pos hlt]
    dsimp only
    rw [if_neg hsat, hbest]
    dsimp only
    rw [if_pos hnum]
    refine ⟨?_, ?_, ?_⟩
    · intro st h
      injection h with h1
      rw [← h1]
      exact ⟨hinvnew, hccount2⟩
    · intro m st h; exact PassOut.noConfusion h
    · intro st h; exact PassOut.noConfusion h
  | case5 alloc remaining order i hlt a ag bundle hsat item hbest alloc2 remaining2 hnum ih =>
    intro hinv hcount
    rcases hinv with ⟨hi1, hi2, hi3, hi4, hi5, hi6, hi7⟩
    have harange : a < agents.length := taker_in_range agents cat a bundle hsat
    have hagmem : agents.getD a [] ∈ agents := by
      rw [List.getD_eq_getElem _ _ harange]
      exact List.getElem_mem harange
    have hamem : a ∈ order := by
      show order.getD i 0 ∈ order
      rw [List.getD_eq_getElem _ _ hlt]
      exact List.getElem_mem hlt
    have halen : a < alloc.length := by rw [hi1]; exact harange
    have heq0 : AdditiveAgent.num_items_in_bundle
        (subAgent (agents.getD a []) cat).toAdditive (alloc.getD a []) =
        ((alloc.getD a []).filter inCat).length :=
      num_items_eq_filter ((subAgent (agents.getD a []) cat).values) inCat
        (hmatch _ hagmem) (alloc.getD a [])
    have hbcount_lt : (bundle.filter inCat).length <
        (subAgent (agents.getD a []) cat).capacity := by
      have hns : ¬ (subAgent (agents.getD a []) cat).capacity ≤
          AdditiveAgent.num_items_in_bundle
            (subAgent (agents.getD a []) cat).toAdditive (alloc.getD a []) := by
        intro hle
        apply hsat
        rw [catAgent_is_saturated, AdditiveAgentWithCapacity.is_saturated,
          decide_eq_true_eq]
        exact hle
      rw [heq0] at hns
      show ((alloc.getD a []).filter inCat).length < _
      omega
    obtain ⟨y, hymem, hycat⟩ : ∃ y ∈ remaining, inCat y = true := by
      have hne : remaining.filter inCat ≠ [] := by
        intro e
        rw [e] at hcount
        simp at hcount
      rcases List.exists_mem_of_ne_nil _ hne with ⟨y, hy⟩
      exact ⟨y, (List.mem_filter.mp hy).1, (List.mem_filter.mp hy).2⟩
    have hitem : item ∈ remaining ∧ inCat item = true := by
      have hne2 : remaining ≠ [] := by
        intro e
        rw [e] at hymem
        cases hymem
      rcases best_item_spec (subAgent ag cat).toAdditive remaining hne2 with
        ⟨z, hz, hzmem, hzmax⟩
      have hbest2 : catAgent_best_item ag remaining cat = some item := hbest
      rw [catAgent_best_item, hz] at hbest2
      injection hbest2 with hzi
      refine ⟨hzi ▸ hzmem, ?_⟩
      rw [← hzi]
      have hysome : ((subAgent (agents.getD a []) cat).values.lookup y).isSome
          = true := by
        rw [hmatch _ hagmem y]
        exact hycat
      rcases Option.isSome_iff_exists.mp hysome with ⟨v, hv⟩
      have hvpos : 0 < v := hpos _ hagmem y v hv
      have hyval : (subAgent ag cat).toAdditive.item_value y = v := by
        rw [AdditiveAgent.item_value]
        show (match (subAgent (agents.getD a []) cat).values.lookup y with
          | some w => w
          | none => 0) = v
        rw [hv]
      have hzval : 0 < (subAgent ag cat).toAdditive.item_value z := by
        have := hzmax y hymem
        omega
      rw [← hmatch _ hagmem z]
      cases hlz : (subAgent (agents.getD a []) cat).values.lookup z with
      | none =>
        exfalso
        have hz0 : (subAgent ag cat).toAdditive.item_value z = 0 := by
          rw [AdditiveAgent.item_value]
          show (match (subAgent (agents.getD a []) cat).values.lookup z with
            | some w => w
            | none => 0 : Int) = 0
          rw [hlz]
        omega
      | some w => rfl
    have hcount2 : ((remaining.erase item).filter inCat).length + 1 =
        (remaining.filter inCat).length :=
      length_filter_erase_of_mem inCat remaining item hitem.1 hitem.2
    have hinvnew : CRRInv agents cat inCat T M
        (alloc.set a (bundle ++ [item])) (remaining.erase item) order := by
      refine ⟨by rw [List.length_set]; exact hi1, ?_, ?_, hi4, ?_, ?_, ?_⟩
      · intro b hb
        by_cases hba : b = a
        · rw [hba, getD_set_self alloc a (bundle ++ [item]) [] halen,
            length_filter_append_singleton inCat bundle item, hitem.2]
          show (bundle.filter inCat).length + 1 ≤ _
          omega
        · rw [getD_set_ne alloc a b (bundle ++ [item]) [] (fun e => hba e.symm)]
          exact hi2 b hb
      · intro b hb hbord
        have hba : b ≠ a := fun e => hbord (by rw [e]; exact hamem)
        rw [getD_set_ne alloc a b (bundle ++ [item]) [] (fun e => hba e.symm)]
        exact hi3 b hb hbord
      · intro b hb x hx
        rcases List.mem_or_eq_of_mem_set hb with hb2 | rfl
        · exact hi5 b hb2 x hx
        · rcases List.mem_append.mp hx with hx2 | hx2
          · refine hi5 (alloc.getD a []) ?_ x hx2
            rw [List.getD_eq_getElem _ _ halen]
            exact List.getElem_mem halen
          · rcases List.mem_singleton.mp hx2 with rfl
            exact hitem.2
      · have hflat : ((alloc.set a (bundle ++ [item])).flatten : Multiset Item) =
            ↑(item :: alloc.flatten) :=
          Multiset.coe_eq_coe.mpr (flatten_set_append_perm alloc a halen item)
        have hrem : (↑remaining : Multiset Item) =
            ↑(item :: remaining.erase item) :=
          Multiset.coe_eq_coe.mpr (List.perm_cons_erase hitem.1)
        rw [hflat, ← Multiset.cons_coe, Multiset.cons_add, ← Multiset.add_cons,
          Multiset.cons_coe, ← hrem]
        exact hi6
      · have hsum2 : ∑ b ∈ Finset.range agents.length,
            (((alloc.set a (bundle ++ [item])).getD b []).filter inCat).length =
            (∑ b ∈ Finset.range agents.length,
              ((alloc.getD b []).filter inCat).length) + 1 := by
          refine sum_update_succ (Finset.mem_range.mpr harange) ?_ ?_
          · intro b hb2 hba
            rw [getD_set_ne alloc a b (bundle ++ [item]) [] (fun e => hba e.symm)]
          · rw [getD_set_self alloc a (bundle ++ [item]) [] halen,
              length_filter_append_singleton inCat bundle item, hitem.2]
            rfl
        rw [hsum2]
        omega
    have hnum_eq : catAgent_num_items ag remaining2 cat =
        ((remaining.erase item).filter inCat).length :=
      num_items_eq_filter ((subAgent ag cat).values) inCat (hmatch ag hagmem)
        (remaining.erase item)
    have hccount2 : 0 < ((remaining.erase item).filter inCat).length :=
      Nat.pos_of_ne_zero (fun e => hnum (hnum_eq.trans e))
    have hlen2 : remaining2.length = remaining.length - 1 :=
      List.length_erase_of_mem hitem.1
    have hrempos : 0 < remaining.length :=
      List.length_pos.mpr (List.ne_nil_of_mem hitem.1)
    rcases ih hinvnew hccount2 with ⟨ihdone, iherr, ihnext⟩
    rw [crrPass, dif_pos hlt]
    dsimp only
    rw [if_neg hsat, hbest]
    dsimp only
    rw [if_neg hnum]
    refine ⟨ihdone, iherr, ?_⟩
    intro st h
    rcases ihnext st h with ⟨h1, h2, h3, -⟩
    exact ⟨h1, h2, by omega, fun _ => by omega⟩
  | case6 alloc remaining order i hge =>
    intro hinv hcount
    rw [crrPass, dif_neg hge]
    refine ⟨?_, ?_, ?_⟩
    · intro st h; exact PassOut.noConfusion h
    · intro m st h; exact PassOut.noConfusion h
    · intro st h
      injection h with h1
      rw [← h1]
      exact ⟨hinv, hcount, le_refl _, fun hik => absurd hik hge⟩

/-- The while loop of capped_round_robin run on an invariant-satisfying state
with recognized items left and enough fuel returns normally with the
invariant and an exhausted category. -/
theorem crrLoop_inv_spec (agents : List (CatAgent Item)) (cat : Nat)
    (inCat : Item → Bool)
    (hmatch : ∀ ag ∈ agents, ∀ x : Item,
      ((subAgent ag cat).values.lookup x).isSome = inCat x)
    (hpos : ∀ ag ∈ agents, ∀ (x : Item) (v : Int),
      (subAgent ag cat).values.lookup x = some v → 0 < v)
    (T : Nat) (M : Multiset Item)
    (hT : T = ∑ a ∈ Finset.range agents.length,
      (subAgent (agents.getD a []) cat).capacity) :
    ∀ (fuel : Nat) (st : CRRState Item),
      CRRInv agents cat inCat T M st.allocation st.remaining st.order →
      0 < (st.remaining.filter inCat).length →
      st.remaining.length + st.order.length < fuel →
      ∃ st2, crrLoop agents cat fuel st = .ok st2 ∧
        CRRInv agents cat inCat T M st2.allocation st2.remaining st2.order ∧
        (st2.remaining.filter inCat).length = 0 := by
  intro fuel
  induction fuel with
  | zero => intro st _ _ hm; omega
  | succ fuel ih =>
    intro st hinv hcount hfuel
    have horder : st.order ≠ [] := by
      intro e
      rcases hinv with ⟨hi1, hi2, hi3, -, -, -, hi7⟩
      have hall : ∀ b : Nat, b < agents.length →
          ((st.allocation.getD b []).filter inCat).length =
            (subAgent (agents.getD b []) cat).capacity := by
        intro b hb
        refine hi3 b hb ?_
        rw [e]
        exact List.not_mem_nil b
      have hsum : ∑ b ∈ Finset.range agents.length,
          ((st.allocation.getD b []).filter inCat).length = T := by
        rw [hT]
        exact Finset.sum_congr rfl (fun b hb => hall b (Finset.mem_range.mp hb))
      omega
    rcases crrPass_inv_spec agents cat inCat hmatch hpos T M hT st.allocation
      st.remaining st.order 0 hinv hcount with ⟨pd, pe, pn⟩
    rw [crrLoop]
    cases hp : crrPass agents cat st.allocation st.remaining st.order 0 with
    | next st2 =>
      rcases pn st2 hp with ⟨h1, h2, -, h4⟩
      have hstrict := h4 (by rw [List.length_pos]; exact horder)
      exact ih st2 h1 h2 (by omega)
    | done st2 =>
      exact ⟨st2, rfl, pd st2 hp⟩
    | err m st2 =>
      exact absurd hp (fun h => pe m st2 h)

/-- One full category run of capped_round_robin: when the turn order lists
every agent without duplicates, the value tables of the category recognize
exactly the category items with positive values, and the category capacities
sum exactly to the category item count of the pool (a positive count), the
call returns normally; the returned allocation has one bundle per agent,
holds only category items, moves exactly the taken items out of the pool,
gives every agent exactly its capacity of category items and leaves no
category item in the pool. -/
theorem capped_round_robin_complete (agents : List (CatAgent Item)) (cat : Nat)
    (remaining : List Item) (order : List Nat) (inCat : Item → Bool)
    (hmatch : ∀ ag ∈ agents, ∀ x : Item,
      ((subAgent ag cat).values.lookup x).isSome = inCat x)
    (hpos : ∀ ag ∈ agents, ∀ (x : Item) (v : Int),
      (subAgent ag cat).values.lookup x = some v → 0 < v)
    (hT : (remaining.filter inCat).length =
      ∑ a ∈ Finset.range agents.length,
        (subAgent (agents.getD a []) cat).capacity)
    (hcount : 0 < (remaining.filter inCat).length)
    (hnodup : order.Nodup)
    (hcomplete : ∀ a : Nat, a < agents.length → a ∈ order) :
    ∃ st, capped_round_robin remaining agents cat order = .ok st ∧
      st.allocation.length = agents.length ∧
      ((st.allocation.flatten : Multiset Item) + ↑st.remaining = ↑remaining) ∧
      (∀ b ∈ st.allocation, ∀ x ∈ b, inCat x = true) ∧
      (∀ a : Nat, a < agents.length →
        ((st.allocation.getD a []).filter inCat).length =
          (subAgent (agents.getD a []) cat).capacity) ∧
      (st.remaining.filter inCat).length = 0 := by
  have hz : ∑ a ∈ Finset.range agents.length,
      (((agents.map (fun _ => ([] : List Item))).getD a []).filter inCat).length
      = 0 :=
    Finset.sum_eq_zero (fun a ha => by rw [getD_map_nil]; rfl)
  have hinv0 : CRRInv agents cat inCat
      (∑ a ∈ Finset.range agents.length,
        (subAgent (agents.getD a []) cat).capacity) (↑remaining)
      (agents.map (fun _ => ([] : List Item))) remaining order := by
    refine ⟨by rw [List.length_map], ?_, ?_, hnodup, ?_, ?_, ?_⟩
    · intro a ha
      rw [getD_map_nil]
      simp
    · intro a ha haord
      exact absurd (hcomplete a ha) haord
    · intro b hb x hx
      rcases List.mem_map.mp hb with ⟨y, hy, rfl⟩
      cases hx
    · rw [flatten_map_nil]
      simp
    · rw [hz]
      omega
  rcases crrLoop_inv_spec agents cat inCat hmatch hpos
    (∑ a ∈ Finset.range agents.length,
      (subAgent (agents.getD a []) cat).capacity) (↑remaining) rfl
    (remaining.length + order.length + 1)
    ⟨agents.map (fun _ => []), remaining, order⟩ hinv0 hcount
    (by show remaining.length + order.length < remaining.length + order.length + 1
        omega) with ⟨st, hok, hinv, hc0⟩
  rcases hinv with ⟨hi1, hi2, hi3, hi4, hi5, hi6, hi7⟩
  refine ⟨st, ?_, hi1, hi6, hi5, ?_, hc0⟩
  · rw [capped_round_robin]
    exact hok
  · have hsum_eq : ∑ a ∈ Finset.range agents.length,
        ((st.allocation.getD a []).filter inCat).length =
        ∑ a ∈ Finset.range agents.length,
          (subAgent (agents.getD a []) cat).capacity := by
      omega
    have hpt := (Finset.sum_eq_sum_iff_of_le
      (fun a ha => hi2 a (Finset.mem_range.mp ha))).mp hsum_eq
    intro a ha
    exact hpt a (Finset.mem_range.mpr ha)

/-- getD of a bundle-wise concatenation of equally long allocations. -/
theorem getD_zipWith_append {α : Type} (l1 l2 : List (List α)) (a : Nat)
    (h : l1.length = l2.length) :
    (List.zipWith (· ++ ·) l1 l2).getD a [] = l1.getD a [] ++ l2.getD a [] := by
  rcases Nat.lt_or_ge a l1.length with hlt | hge
  · have hlt2 : a < l2.length := by omega
    have hltz : a < (List.zipWith (· ++ ·) l1 l2).length := by
      rw [List.length_zipWith]
      omega
    rw [List.getD_eq_getElem _ _ hltz, List.getD_eq_getElem _ _ hlt,
      List.getD_eq_getElem _ _ hlt2, List.getElem_zipWith]
  · rw [List.getD_eq_default _ _ (by rw [List.length_zipWith]; omega),
      List.getD_eq_default _ _ (by omega), List.getD_eq_default _ _ (by omega)]
    rfl

/-- The flattening of a bundle-wise concatenation holds the items of both
allocations. -/
theorem flatten_zipWith_append {α : Type} :
    ∀ (l1 l2 : List (List α)), l1.length = l2.length →
      ((List.zipWith (· ++ ·) l1 l2).flatten : Multiset α) =
        ↑l1.flatten + ↑l2.flatten := by
  intro l1
  induction l1 with
  | nil =>
    intro l2 h
    have h2 : l2 = [] := List.length_eq_zero.mp h.symm
    subst h2
    rfl
  | cons b t ih =>
    intro l2 h
    cases l2 with
    | nil => simp at h
    | cons b2 t2 =>
      have hlen : t.length = t2.length := by
        simp only [List.length_cons] at h
        omega
      rw [List.zipWith_cons_cons, List.flatten_cons, List.flatten_cons,
        List.flatten_cons]
      simp only [← Multiset.coe_add]
      rw [ih t2 hlen]
      abel

/-- The category loop of category_capped_round_robin: with pairwise disjoint
categories (distinct keys), value tables recognizing exactly their category
with positive values, complete duplicate-free turn orders, and per-category
capacities summing exactly to the (positive) category counts of the pool, the
loop returns normally, appends to each accumulated bundle exactly the
capacity of every category in items of that category, conserves items, and
drains every listed category from the pool. -/
theorem ccrr_go_spec (agents : List (CatAgent Item)) (inCat : Nat → Item → Bool) :
    ∀ (cats : List (Nat × List Nat)) (alloc : List (List Item))
      (remaining : List Item),
      (∀ p ∈ cats, ∀ ag ∈ agents, ∀ x : Item,
        ((subAgent ag p.1).values.lookup x).isSome = inCat p.1 x) →
      (∀ p ∈ cats, ∀ ag ∈ agents, ∀ (x : Item) (v : Int),
        (subAgent ag p.1).values.lookup x = some v → 0 < v) →
      (cats.map Prod.fst).Nodup →
      (∀ p ∈ cats, ∀ q ∈ cats, p.1 ≠ q.1 → ∀ x : Item,
        inCat p.1 x = true → inCat q.1 x = false) →
      (∀ p ∈ cats, p.2.Nodup ∧ ∀ a : Nat, a < agents.length → a ∈ p.2) →
      (∀ p ∈ cats,
        (remaining.filter (inCat p.1)).length =
          ∑ a ∈ Finset.range agents.length,
            (subAgent (agents.getD a []) p.1).capacity ∧
        0 < (remaining.filter (inCat p.1)).length) →
      alloc.length = agents.length →
      ∃ st, ccrr_go agents cats alloc remaining = .ok st ∧
        st.allocation.length = agents.length ∧
        ((st.allocation.flatten : Multiset Item) + ↑st.remaining =
          ↑alloc.flatten + ↑remaining) ∧
        ((↑st.remaining : Multiset Item) ≤ ↑remaining) ∧
        (∀ a : Nat, a < agents.length → ∃ extra : List Item,
          st.allocation.getD a [] = alloc.getD a [] ++ extra ∧
          (∀ q ∈ cats, (extra.filter (inCat q.1)).length =
            (subAgent (agents.getD a []) q.1).capacity) ∧
          (∀ x ∈ extra, ∃ q ∈ cats, inCat q.1 x = true)) ∧
        (∀ x ∈ st.remaining, ∀ p ∈ cats, inCat p.1 x = false) := by
  intro cats
  induction cats with
  | nil =>
    intro alloc remaining hmatch hpos hnodupf hdisj horders hcnt halloc
    refine ⟨⟨alloc, remaining, []⟩, rfl, halloc, rfl, le_refl _, ?_, ?_⟩
    · intro a ha
      exact ⟨[], (List.append_nil _).symm,
        fun q hq => absurd hq (List.not_mem_nil q),
        fun x hx => absurd hx (List.not_mem_nil x)⟩
    · intro x hx p hp
      exact absurd hp (List.not_mem_nil p)
  | cons c rest ih =>
    obtain ⟨c1, c2⟩ := c
    intro alloc remaining hmatch hpos hnodupf hdisj horders hcnt halloc
    have hm1 : ∀ ag ∈ agents, ∀ x : Item,
        ((subAgent ag c1).values.lookup x).isSome = inCat c1 x :=
      hmatch (c1, c2) (List.mem_cons_self _ _)
    have hp1 : ∀ ag ∈ agents, ∀ (x : Item) (v : Int),
        (subAgent ag c1).values.lookup x = some v → 0 < v :=
      hpos (c1, c2) (List.mem_cons_self _ _)
    obtain ⟨hT1, hcount1⟩ :
        (remaining.filter (inCat c1)).length =
          ∑ a ∈ Finset.range agents.length,
            (subAgent (agents.getD a []) c1).capacity ∧
        0 < (remaining.filter (inCat c1)).length :=
      hcnt (c1, c2) (List.mem_cons_self _ _)
    obtain ⟨hnod1, hcomp1⟩ :
        c2.Nodup ∧ (∀ a : Nat, a < agents.length → a ∈ c2) :=
      horders (c1, c2) (List.mem_cons_self _ _)
    have hne : ∀ q ∈ rest, c1 ≠ q.1 := by
      intro q hq e
      rw [List.map_cons] at hnodupf
      have hqm : q.1 ∈ rest.map Prod.fst := List.mem_map_of_mem Prod.fst hq
      rw [← e] at hqm
      exact (List.nodup_cons.mp hnodupf).1 hqm
    rcases capped_round_robin_complete agents c1 remaining c2 (inCat c1)
      hm1 hp1 hT1 hcount1 hnod1 hcomp1 with
      ⟨st1, hok1, hlen1, hcons1, hpure1, hcounts1, hc0⟩
    have hlen12 : alloc.length = st1.allocation.length := by
      rw [halloc, hlen1]
    have halloc2 : (List.zipWith (· ++ ·) alloc st1.allocation).length =
        agents.length := by
      rw [List.length_zipWith, halloc, hlen1, Nat.min_self]
    have hnone1 : ∀ y ∈ st1.remaining, inCat c1 y = false := by
      intro y hy
      cases hcy : inCat c1 y with
      | false => rfl
      | true =>
        exfalso
        have hmemf : y ∈ st1.remaining.filter (inCat c1) :=
          List.mem_filter.mpr ⟨hy, hcy⟩
        rw [List.length_eq_zero.mp hc0] at hmemf
        cases hmemf
    have hcnt2 : ∀ q ∈ rest,
        (st1.remaining.filter (inCat q.1)).length =
          ∑ a ∈ Finset.range agents.length,
            (subAgent (agents.getD a []) q.1).capacity ∧
        0 < (st1.remaining.filter (inCat q.1)).length := by
      intro q hq
      have hsplit := length_filter_of_multiset_eq (inCat q.1)
        st1.allocation.flatten st1.remaining remaining hcons1
      have hflat0 : (st1.allocation.flatten.filter (inCat q.1)).length = 0 := by
        have hfe : st1.allocation.flatten.filter (inCat q.1) = [] := by
          rw [List.filter_eq_nil]
          intro x hx
          rcases List.mem_flatten.mp hx with ⟨b, hb, hxb⟩
          have hfx : inCat q.1 x = false :=
            hdisj (c1, c2) (List.mem_cons_self _ _) q
              (List.mem_cons_of_mem _ hq) (hne q hq) x (hpure1 b hb x hxb)
          rw [hfx]
          exact Bool.false_ne_true
        rw [hfe]
        rfl
      obtain ⟨hTq, hposq⟩ := hcnt q (List.mem_cons_of_mem _ hq)
      exact ⟨by omega, by omega⟩
    rcases ih (List.zipWith (· ++ ·) alloc st1.allocation) st1.remaining
      (fun p hp => hmatch p (List.mem_cons_of_mem _ hp))
      (fun p hp => hpos p (List.mem_cons_of_mem _ hp))
      (by rw [List.map_cons] at hnodupf; exact (List.nodup_cons.mp hnodupf).2)
      (fun p hp q hq => hdisj p (List.mem_cons_of_mem _ hp) q
        (List.mem_cons_of_mem _ hq))
      (fun p hp => horders p (List.mem_cons_of_mem _ hp))
      hcnt2 halloc2 with ⟨st, hok, hlen, hcons, hsub, hdecomp, hforb⟩
    refine ⟨st, ?_, hlen, ?_, ?_, ?_, ?_⟩
    · rw [ccrr_go, hok1]
      exact hok
    · rw [flatten_zipWith_append alloc st1.allocation hlen12, add_assoc,
        hcons1] at hcons
      exact hcons
    · refine le_trans hsub ?_
      rw [← hcons1]
      exact le_add_self
    · intro a ha
      rcases hdecomp a ha with ⟨extra2, heq2, hcnt3, hpure3⟩
      have hgmem : st1.allocation.getD a [] ∈ st1.allocation := by
        rw [List.getD_eq_getElem _ _ (by rw [hlen1]; exact ha)]
        exact List.getElem_mem (by rw [hlen1]; exact ha)
      refine ⟨st1.allocation.getD a [] ++ extra2, ?_, ?_, ?_⟩
      · rw [heq2, getD_zipWith_append alloc st1.allocation a hlen12,
          List.append_assoc]
      · intro q hq
        rcases List.mem_cons.mp hq with rfl | hq2
        · show ((st1.allocation.getD a [] ++ extra2).filter (inCat c1)).length =
            (subAgent (agents.getD a []) c1).capacity
          have hx0 : extra2.filter (inCat c1) = [] := by
            rw [List.filter_eq_nil]
            intro x hx
            rcases hpure3 x hx with ⟨q2, hq2, hxq2⟩
            have hfx : inCat c1 x = false :=
              hdisj q2 (List.mem_cons_of_mem _ hq2) (c1, c2)
                (List.mem_cons_self _ _) (Ne.symm (hne q2 hq2)) x hxq2
            rw [hfx]
            exact Bool.false_ne_true
          rw [List.filter_append, List.length_append, hx0, List.length_nil,
            Nat.add_zero, hcounts1 a ha]
        · show ((st1.allocation.getD a [] ++ extra2).filter (inCat q.1)).length =
            (subAgent (agents.getD a []) q.1).capacity
          have hb0 : (st1.allocation.getD a []).filter (inCat q.1) = [] := by
            rw [List.filter_eq_nil]
            intro x hx
            have hfx : inCat q.1 x = false :=
              hdisj (c1, c2) (List.mem_cons_self _ _) q
                (List.mem_cons_of_mem _ hq2) (hne q hq2) x
                (hpure1 _ hgmem x hx)
            rw [hfx]
            exact Bool.false_ne_true
          rw [List.filter_append, List.length_append, hb0, List.length_nil,
            Nat.zero_add, hcnt3 q hq2]
      · intro x hx
        rcases List.mem_append.mp hx with hx1 | hx2
        · exact ⟨(c1, c2), List.mem_cons_self _ _, hpure1 _ hgmem x hx1⟩
        · rcases hpure3 x hx2 with ⟨q, hq, hq2⟩
          exact ⟨q, List.mem_cons_of_mem _ hq, hq2⟩
    · intro x hx p hp
      rcases List.mem_cons.mp hp with rfl | hp2
      · show inCat c1 x = false
        have hx1 : x ∈ st1.remaining :=
          Multiset.mem_coe.mp (Multiset.mem_of_le hsub (Multiset.mem_coe.mpr hx))
        exact hnone1 x hx1
      · exact hforb x hx p hp2

/-- C8 (amended): for category-capacitated agents over pairwise disjoint
categories whose per-category capacities sum exactly to each category's
(positive) item count, where every pool item belongs to a listed category,
every category's value table recognizes exactly its category items with
positive values, and every category's turn order lists every agent without
duplicates, category_capped_round_robin returns one allocation with one
bundle per agent that covers exactly the supplied item pool, and each
agent's per-category item count equals that agent's capacity for that
category. -/
theorem category_capped_round_robin_complete
    (all_items : List Item) (agents : List (CatAgent Item))
    (catOrders : List (Nat × List Nat)) (inCat : Nat → Item → Bool)
    (hmatch : ∀ p ∈ catOrders, ∀ ag ∈ agents, ∀ x : Item,
      ((subAgent ag p.1).values.lookup x).isSome = inCat p.1 x)
    (hpos : ∀ p ∈ catOrders, ∀ ag ∈ agents, ∀ (x : Item) (v : Int),
      (subAgent ag p.1).values.lookup x = some v → 0 < v)
    (hkeys : (catOrders.map Prod.fst).Nodup)
    (hdisj : ∀ p ∈ catOrders, ∀ q ∈ catOrders, p.1 ≠ q.1 → ∀ x : Item,
      inCat p.1 x = true → inCat q.1 x = false)
    (horders : ∀ p ∈ catOrders, p.2.Nodup ∧
      ∀ a : Nat, a < agents.length → a ∈ p.2)
    (hcap : ∀ p ∈ catOrders,
      (all_items.filter (inCat p.1)).length =
        ∑ a ∈ Finset.range agents.length,
          (subAgent (agents.getD a []) p.1).capacity ∧
      0 < (all_items.filter (inCat p.1)).length)
    (hcover : ∀ x ∈ all_items, ∃ p ∈ catOrders, inCat p.1 x = true) :
    ∃ st, category_capped_round_robin all_items agents catOrders = .ok st ∧
      st.allocation.length = agents.length ∧
      st.allocation.flatten.Perm all_items ∧
      (∀ a : Nat, a < agents.length → ∀ p ∈ catOrders,
        ((st.allocation.getD a []).filter (inCat p.1)).length =
          (subAgent (agents.getD a []) p.1).capacity) := by
  rcases ccrr_go_spec agents inCat catOrders (agents.map (fun _ => []))
    all_items hmatch hpos hkeys hdisj horders hcap (by rw [List.length_map])
    with ⟨st, hok, hlen, hcons, hsub, hdecomp, hforb⟩
  have h0 : ((agents.map (fun _ => ([] : List Item))).flatten : Multiset Item)
      = 0 := by
    rw [flatten_map_nil]
    rfl
  have hremnil : st.remaining = [] := by
    refine List.eq_nil_iff_forall_not_mem.mpr ?_
    intro x hx
    have hxall : x ∈ all_items := by
      have hc2 : (↑st.remaining : Multiset Item) ≤ ↑all_items := by
        rw [h0, zero_add] at hcons
        rw [← hcons]
        exact le_add_self
      exact Multiset.mem_coe.mp (Multiset.mem_of_le hc2 (Multiset.mem_coe.mpr hx))
    rcases hcover x hxall with ⟨p, hp, hpx⟩
    rw [hforb x hx p hp] at hpx
    cases hpx
  have hperm : st.allocation.flatten.Perm all_items := by
    rw [hremnil, h0, zero_add, Multiset.coe_nil, add_zero] at hcons
    exact Multiset.coe_eq_coe.mp hcons
  refine ⟨st, ?_, hlen, hperm, ?_⟩
  · rw [category_capped_round_robin]
    exact hok
  · intro a ha p hp
    rcases hdecomp a ha with ⟨extra, heq, hcnts, -⟩
    rw [heq, getD_map_nil, List.nil_append]
    exact hcnts p hp

/-- C8 counterexample: two agents over two singleton categories whose
capacities sum exactly to each category's item count (agent 0 may take the
one category-0 item, agent 1 the one category-1 item), yet with zero item
values agent 0 first grabs the category-1 item (max over the whole pool ties
at value 0 and Python's max keeps the first), so the category-1 run later
finds an empty pool and raises ValueError instead of returning the claimed
complete allocation. -/
theorem category_capped_round_robin_incomplete :
    (([2, 1] : List Nat).filter (fun x => x == 1)).length =
      (subAgent [⟨1, [(1, 0)]⟩, ⟨0, [(2, 0)]⟩] 0).capacity +
      (subAgent [⟨0, [(1, 0)]⟩, ⟨1, [(2, 0)]⟩] 0).capacity ∧
    (([2, 1] : List Nat).filter (fun x => x == 2)).length =
      (subAgent [⟨1, [(1, 0)]⟩, ⟨0, [(2, 0)]⟩] 1).capacity +
      (subAgent [⟨0, [(1, 0)]⟩, ⟨1, [(2, 0)]⟩] 1).capacity ∧
    category_capped_round_robin ([2, 1] : List Nat)
      [[⟨1, [(1, 0)]⟩, ⟨0, [(2, 0)]⟩], [⟨0, [(1, 0)]⟩, ⟨1, [(2, 0)]⟩]]
      [(0, [0, 1]), (1, [0, 1])] =
      .err "ValueError: max() arg is an empty sequence" ⟨[[], []], [], [1]⟩ := by
  refine ⟨by decide, by decide, ?_⟩
  have hpA3 : crrPass
      [[(⟨1, [(1, 0)]⟩ : AdditiveAgentWithCapacity Nat), ⟨0, [(2, 0)]⟩],
       [⟨0, [(1, 0)]⟩, ⟨1, [(2, 0)]⟩]] 0 [[2], []] [1] [0] 2 =
      .next ⟨[[2], []], [1], [0]⟩ := by
    rw [crrPass]
    rfl
  have hpA2 : crrPass
      [[(⟨1, [(1, 0)]⟩ : AdditiveAgentWithCapacity Nat), ⟨0, [(2, 0)]⟩],
       [⟨0, [(1, 0)]⟩, ⟨1, [(2, 0)]⟩]] 0 [[2], []] [1] [0, 1] 1 =
      .next ⟨[[2], []], [1], [0]⟩ := by
    rw [crrPass]
    exact hpA3
  have hpA1 : crrPass
      [[(⟨1, [(1, 0)]⟩ : AdditiveAgentWithCapacity Nat), ⟨0, [(2, 0)]⟩],
       [⟨0, [(1, 0)]⟩, ⟨1, [(2, 0)]⟩]] 0 [[], []] [2, 1] [0, 1] 0 =
      .next ⟨[[2], []], [1], [0]⟩ := by
    rw [crrPass]
    exact hpA2
  have hpB : crrPass
      [[(⟨1, [(1, 0)]⟩ : AdditiveAgentWithCapacity Nat), ⟨0, [(2, 0)]⟩],
       [⟨0, [(1, 0)]⟩, ⟨1, [(2, 0)]⟩]] 0 [[2], []] [1] [0] 0 =
      .done ⟨[[2, 1], []], [], [0]⟩ := by
    rw [crrPass]
    rfl
  have hlA2 : crrLoop
      [[(⟨1, [(1, 0)]⟩ : AdditiveAgentWithCapacity Nat), ⟨0, [(2, 0)]⟩],
       [⟨0, [(1, 0)]⟩, ⟨1, [(2, 0)]⟩]] 0 (3 + 1) ⟨[[2], []], [1], [0]⟩ =
      .ok ⟨[[2, 1], []], [], [0]⟩ := by
    rw [crrLoop]
    dsimp only
    rw [hpB]
  have hlA1 : crrLoop
      [[(⟨1, [(1, 0)]⟩ : AdditiveAgentWithCapacity Nat), ⟨0, [(2, 0)]⟩],
       [⟨0, [(1, 0)]⟩, ⟨1, [(2, 0)]⟩]] 0 (4 + 1) ⟨[[], []], [2, 1], [0, 1]⟩ =
      .ok ⟨[[2, 1], []], [], [0]⟩ := by
    rw [crrLoop]
    dsimp only
    rw [hpA1]
    exact hlA2
  have hcrr0 : capped_round_robin ([2, 1] : List Nat)
      [[(⟨1, [(1, 0)]⟩ : AdditiveAgentWithCapacity Nat), ⟨0, [(2, 0)]⟩],
       [⟨0, [(1, 0)]⟩, ⟨1, [(2, 0)]⟩]] 0 [0, 1] =
      .ok ⟨[[2, 1], []], [], [0]⟩ := by
    rw [capped_round_robin]
    show crrLoop
      [[(⟨1, [(1, 0)]⟩ : AdditiveAgentWithCapacity Nat), ⟨0, [(2, 0)]⟩],
       [⟨0, [(1, 0)]⟩, ⟨1, [(2, 0)]⟩]] 0 (4 + 1) ⟨[[], []], [2, 1], [0, 1]⟩ = _
    exact hlA1
  have hpC2 : crrPass
      [[(⟨1, [(1, 0)]⟩ : AdditiveAgentWithCapacity Nat), ⟨0, [(2, 0)]⟩],
       [⟨0, [(1, 0)]⟩, ⟨1, [(2, 0)]⟩]] 1 [[], []] [] [1] 1 =
      .next ⟨[[], []], [], [1]⟩ := by
    rw [crrPass]
    rfl
  have hpC1 : crrPass
      [[(⟨1, [(1, 0)]⟩ : AdditiveAgentWithCapacity Nat), ⟨0, [(2, 0)]⟩],
       [⟨0, [(1, 0)]⟩, ⟨1, [(2, 0)]⟩]] 1 [[], []] [] [0, 1] 0 =
      .next ⟨[[], []], [], [1]⟩ := by
    rw [crrPass]
    exact hpC2
  have hpD : crrPass
      [[(⟨1, [(1, 0)]⟩ : AdditiveAgentWithCapacity Nat), ⟨0, [(2, 0)]⟩],
       [⟨0, [(1, 0)]⟩, ⟨1, [(2, 0)]⟩]] 1 [[], []] [] [1] 0 =
      .err "ValueError: max() arg is an empty sequence" ⟨[[], []], [], [1]⟩ := by
    rw [crrPass]
    rfl
  have hlC2 : crrLoop
      [[(⟨1, [(1, 0)]⟩ : AdditiveAgentWithCapacity Nat), ⟨0, [(2, 0)]⟩],
       [⟨0, [(1, 0)]⟩, ⟨1, [(2, 0)]⟩]] 1 (1 + 1) ⟨[[], []], [], [1]⟩ =
      .err "ValueError: max() arg is an empty sequence" ⟨[[], []], [], [1]⟩ := by
    rw [crrLoop]
    dsimp only
    rw [hpD]
  have hlC1 : crrLoop
      [[(⟨1, [(1, 0)]⟩ : AdditiveAgentWithCapacity Nat), ⟨0, [(2, 0)]⟩],
       [⟨0, [(1, 0)]⟩, ⟨1, [(2, 0)]⟩]] 1 (2 + 1) ⟨[[], []], [], [0, 1]⟩ =
      .err "ValueError: max() arg is an empty sequence" ⟨[[], []], [], [1]⟩ := by
    rw [crrLoop]
    dsimp only
    rw [hpC1]
    exact hlC2
  have hcrr1 : capped_round_robin ([] : List Nat)
      [[(⟨1, [(1, 0)]⟩ : AdditiveAgentWithCapacity Nat), ⟨0, [(2, 0)]⟩],
       [⟨0, [(1, 0)]⟩, ⟨1, [(2, 0)]⟩]] 1 [0, 1] =
      .err "ValueError: max() arg is an empty sequence" ⟨[[], []], [], [1]⟩ := by
    rw [capped_round_robin]
    show crrLoop
      [[(⟨1, [(1, 0)]⟩ : AdditiveAgentWithCapacity Nat), ⟨0, [(2, 0)]⟩],
       [⟨0, [(1, 0)]⟩, ⟨1, [(2, 0)]⟩]] 1 (2 + 1) ⟨[[], []], [], [0, 1]⟩ = _
    exact hlC1
  rw [category_capped_round_robin]
  show ccrr_go
    [[(⟨1, [(1, 0)]⟩ : AdditiveAgentWithCapacity Nat), ⟨0, [(2, 0)]⟩],
     [⟨0, [(1, 0)]⟩, ⟨1, [(2, 0)]⟩]] [(0, [0, 1]), (1, [0, 1])]
    [[], []] [2, 1] = _
  rw [ccrr_go, hcrr0]
  show ccrr_go
    [[(⟨1, [(1, 0)]⟩ : AdditiveAgentWithCapacity Nat), ⟨0, [(2, 0)]⟩],
     [⟨0, [(1, 0)]⟩, ⟨1, [(2, 0)]⟩]] [(1, [0, 1])] [[2, 1], []] [] = _
  rw [ccrr_go, hcrr1]

/-- C8 witness: two agents, categories {1,2} (capacities 1 and 1) and {3}
(capacities 0 and 1), positive values; the run covers the pool and fills
every capacity exactly. -/
theorem category_capped_round_robin_complete_witness :
    ∃ st,
      category_capped_round_robin ([1, 2, 3] : List Nat)
        [[⟨1, [(1, 5), (2, 3)]⟩, ⟨0, [(3, 2)]⟩],
         [⟨1, [(1, 4), (2, 6)]⟩, ⟨1, [(3, 7)]⟩]]
        [(0, [0, 1]), (1, [0, 1])] = .ok st ∧
      st.allocation.length = 2 ∧
      st.allocation.flatten.Perm [1, 2, 3] ∧
      (∀ a : Nat, a < 2 → ∀ p ∈ [((0 : Nat), [(0 : Nat), 1]), (1, [0, 1])],
        ((st.allocation.getD a []).filter
          (fun x => if p.1 = 0 then (x == 1 || x == 2)
            else if p.1 = 1 then x == 3 else false)).length =
          (subAgent
            ([[⟨1, [(1, 5), (2, 3)]⟩, ⟨0, [(3, 2)]⟩],
              [⟨1, [(1, 4), (2, 6)]⟩, ⟨1, [(3, 7)]⟩]].getD a []) p.1).capacity) :=
  category_capped_round_robin_complete [1, 2, 3]
    [[⟨1, [(1, 5), (2, 3)]⟩, ⟨0, [(3, 2)]⟩],
     [⟨1, [(1, 4), (2, 6)]⟩, ⟨1, [(3, 7)]⟩]]
    [(0, [0, 1]), (1, [0, 1])]
    (fun c x => if c = 0 then (x == 1 || x == 2)
      else if c = 1 then x == 3 else false)
    (by intro p hp ag hag x
        rcases List.mem_cons.mp hp with rfl | hp2
        · rcases List.mem_cons.mp hag with rfl | hag2
          · cases hx1 : x == 1 <;> cases hx2 : x == 2 <;>
              simp [subAgent, List.lookup, hx1, hx2]
          · rcases List.mem_singleton.mp hag2 with rfl
            cases hx1 : x == 1 <;> cases hx2 : x == 2 <;>
              simp [subAgent, List.lookup, hx1, hx2]
        · rcases List.mem_singleton.mp hp2 with rfl
          rcases List.mem_cons.mp hag with rfl | hag2
          · cases hx3 : x == 3 <;> simp [subAgent, List.lookup, hx3]
          · rcases List.mem_singleton.mp hag2 with rfl
            cases hx3 : x == 3 <;> simp [subAgent, List.lookup, hx3])
    (by intro p hp ag hag x v h
        rcases List.mem_cons.mp hp with rfl | hp2
        · rcases List.mem_cons.mp hag with rfl | hag2
          · cases hx1 : x == 1 <;> cases hx2 : x == 2 <;>
              simp [subAgent, List.lookup, hx1, hx2] at h <;> omega
          · rcases List.mem_singleton.mp hag2 with rfl
            cases hx1 : x == 1 <;> cases hx2 : x == 2 <;>
              simp [subAgent, List.lookup, hx1, hx2] at h <;> omega
        · rcases List.mem_singleton.mp hp2 with rfl
          rcases List.mem_cons.mp hag with rfl | hag2
          · cases hx3 : x == 3 <;> simp [subAgent, List.lookup, hx3] at h <;>
              omega
          · rcases List.mem_singleton.mp hag2 with rfl
            cases hx3 : x == 3 <;> simp [subAgent, List.lookup, hx3] at h <;>
              omega)
    (by decide)
    (by intro p hp q hq hne x hpx
        rcases List.mem_cons.mp hp with rfl | hp2
        · rcases List.mem_cons.mp hq with rfl | hq2
          · exact absurd rfl hne
          · rcases List.mem_singleton.mp hq2 with rfl
            simp at hpx
            rcases hpx with rfl | rfl <;> decide
        · rcases List.mem_singleton.mp hp2 with rfl
          rcases List.mem_cons.mp hq with rfl | hq2
          · simp at hpx
            subst hpx
            decide
          · rcases List.mem_singleton.mp hq2 with rfl
            exact absurd rfl hne)
    (by decide)
    (by decide)
    (by decide)

end CappedRoundRobin
